import Mathlib

/-
  Shallow embedding of the FEC codec in src/src/fec.cc (wifibroadcast_bridge).

  The repository sources contain only fec.cc.  The class/struct declarations
  (fec.hh: FECHeader, FECBlock, FECDecoderStats, the member lists of
  FECEncoder / FECDecoder / FECBufferEncoder) are not part of src/, so those
  data-model parts are modelled from the spec (sections 3.1, 3.2, 3.4, 6.1);
  every definition taken from the spec rather than fec.cc says so in its doc
  comment.  All logic (every branch of every member function in fec.cc) is
  translated directly from the source.

  Machine integers are modelled as Nat with explicit reductions mod 2^8 /
  2^16 exactly where the C++ code stores a value into a uint8_t / uint16_t.
-/

namespace FEC

/-- A byte of a packet.  Payload bytes are opaque to the codec, so they are
modelled as unconstrained naturals; header bytes are reduced mod 256 where
the C++ code stores them into `uint8_t` fields. -/
abbrev Byte := Nat

/-- Modelled from the spec: the packed shard header (`FECHeader` in the
missing fec.hh; spec section 3.1 fixes the five fields: `seq_num`, `block`,
`n_blocks`, `n_fec_blocks` are 8 bits and `length` is 16 bits, and the
default-constructed header is all zeroes). -/
structure FECHeader where
  seq_num : Nat := 0
  block : Nat := 0
  n_blocks : Nat := 0
  n_fec_blocks : Nat := 0
  length : Nat := 0
  deriving Repr, DecidableEq, Inhabited

/-- Build a header the way the packed C++ struct stores it: the four 8-bit
fields reduce mod 256 and the 16-bit length reduces mod 65536. -/
def mkHeader (seq blk nb nfb len : Nat) : FECHeader :=
  ⟨seq % 256, blk % 256, nb % 256, nfb % 256, len % 65536⟩

/-- Modelled from the spec: a shard (`FECBlock` in the missing fec.hh).  It
owns one buffer `header ++ payload` (spec sections 3.2 and 6.1); we keep the
header structurally plus the payload bytes that follow the 6 header bytes. -/
structure FECBlock where
  hdr : FECHeader
  payload : List Byte
  deriving Repr, DecidableEq, Inhabited

/-- pkt_length(): the full packet size, 6 header bytes plus the payload. -/
def FECBlock.pktLength (b : FECBlock) : Nat := 6 + b.payload.length

/-- block_size(): `m_pkt_length - sizeof(FECHeader) + 2`, the size of the
FEC-covered region (the 2-byte length field plus the payload, spec 3.2). -/
def FECBlock.blockSize (b : FECBlock) : Nat := b.payload.length + 2

/-- data_length(): the header's 16-bit length field. -/
def FECBlock.dataLength (b : FECBlock) : Nat := b.hdr.length

/-- is_data_block(): the block index is below n_blocks. -/
def FECBlock.isData (b : FECBlock) : Bool := b.hdr.block < b.hdr.n_blocks

/-- Little-endian bytes of the 16-bit length field (wire offsets 4 and 5). -/
def le16 (n : Nat) : List Byte := [n % 256, n / 256 % 256]

/-- pkt_data(): the shard serialized to its on-wire byte string
(spec section 6.1). -/
def FECBlock.toWire (b : FECBlock) : List Byte :=
  [b.hdr.seq_num % 256, b.hdr.block % 256, b.hdr.n_blocks % 256,
   b.hdr.n_fec_blocks % 256] ++ le16 b.hdr.length ++ b.payload

/-- FECBlock(buf, pkt_length): copy pkt_length bytes from the wire and view
them as header plus payload (the uint8_t / uint16_t header reads reduce the
bytes mod 256 / 65536). -/
def FECBlock.ofWire (buf : List Byte) (pktLen : Nat) : FECBlock :=
  let w := buf.take pktLen
  { hdr := mkHeader (w.getD 0 0) (w.getD 1 0) (w.getD 2 0) (w.getD 3 0)
      (w.getD 4 0 + 256 * w.getD 5 0),
    payload := w.drop 6 }

/-- fec_data(): the FEC-covered region handed to the erasure kernel — the
2-byte length field followed by the payload (spec section 3.2). -/
def FECBlock.fecData (b : FECBlock) : List Byte := le16 b.hdr.length ++ b.payload

/-- Normalize a kernel output buffer to exactly `n` bytes (the kernel
contract writes exactly the shard size, spec section 4.1). -/
def padTo (n : Nat) (l : List Byte) : List Byte :=
  l.take n ++ List.replicate (n - l.length) 0

/-- Overwrite a block's FEC region (length field plus payload) with a kernel
output buffer of size `s`, as fec_encode / fec_decode do through the
`fec_data()` pointer: the first two bytes become the 16-bit length field. -/
def FECBlock.withFec (b : FECBlock) (s : Nat) (out : List Byte) : FECBlock :=
  let w := padTo s out
  { hdr := { b.hdr with length := (w.getD 0 0 + 256 * w.getD 1 0) % 65536 },
    payload := w.drop 2 }

/-- FECBlock(seq, block, n_blocks, n_fec_blocks, length): a freshly allocated
block whose buffer holds `length` payload bytes after the header (the
uint16_t length parameter reduces mod 65536).  C++ leaves the payload
uninitialized; we model it as zeroes. -/
def mkBlock (seq blk nb nfb len : Nat) : FECBlock :=
  { hdr := mkHeader seq blk nb nfb len, payload := List.replicate (len % 65536) 0 }

/-- FECBlock(h, block_size): the erasure placeholder the decoder synthesizes —
header copied wholesale from `h`, buffer of `block_size + sizeof(FECHeader) - 2`
bytes, so the payload region holds `block_size - 2` bytes. -/
def mkErased (h : FECHeader) (blockSize : Nat) : FECBlock :=
  { hdr := h, payload := List.replicate (blockSize - 2) 0 }

/-- The external erasure-coding kernel (fec_encode / fec_decode).  It is out
of scope for the codec (spec sections 1, 4.1, 6.2), so it is modelled as an
arbitrary pure function pair: `enc size datas m` returns the `m` parity
buffers, `dec size datas fecs fecIdxs erasedIdxs` returns the reconstructed
buffers for the erased indices, in order. -/
structure Kernel where
  enc : Nat → List (List Byte) → Nat → List (List Byte)
  dec : Nat → List (List Byte) → List (List Byte) → List Nat → List Nat →
    List (List Byte)

/-- A trivial kernel instance, used to instantiate theorems whose statement
does not depend on the kernel's behaviour. -/
def Kzero : Kernel := ⟨fun _ _ _ => [], fun _ _ _ _ _ => []⟩

/-- Sequence-number advance used by both encoders: `++seq; if (seq == 0) ++seq;`
on a uint8_t — wraps 255 to 1, skipping 0. -/
def nextSeq (s : Nat) : Nat :=
  let t := (s + 1) % 256
  if t = 0 then 1 else t

/-!  ## FECEncoder (fec.cc lines 18-105)  -/

/-- The group encoder's state.  The member list is from the missing fec.hh,
but every field is forced by fec.cc: `m_num_blocks`, `m_num_fec_blocks`,
`m_seq_num` are uint8_t, `m_in_blocks` a vector, `m_out_blocks` a queue
(modelled as a list, front first).  The `max_block_size` constructor
parameter is never used by fec.cc. -/
structure FECEncoder where
  m_num_blocks : Nat
  m_num_fec_blocks : Nat
  m_seq_num : Nat
  m_in_blocks : List FECBlock
  m_out_blocks : List FECBlock
  deriving Repr, DecidableEq

/-- FECEncoder(num_blocks, num_fec_blocks, max_block_size, start_seq_num)
(fec.cc line 18): the uint8_t parameters reduce mod 256. -/
def FECEncoder.init (nb nfb seq : Nat) : FECEncoder :=
  ⟨nb % 256, nfb % 256, seq % 256, [], []⟩

/-- get_next_block(length) (fec.cc line 27): a fresh data block headed
(m_seq_num, m_in_blocks.size(), m_num_blocks, m_num_fec_blocks, length),
with length a uint16_t parameter. -/
def FECEncoder.get_next_block (e : FECEncoder) (len : Nat) : FECBlock :=
  mkBlock e.m_seq_num e.m_in_blocks.length e.m_num_blocks e.m_num_fec_blocks
    (len % 65536)

/-- The `std::copy(buf.begin() + start, buf.begin() + end, blk->data())` of
encode_buffer (fec.cc line 371): fill the payload region of a block returned
by get_next_block.  The region holds `hdr.length` bytes, so a slice longer
than the (uint16_t-truncated) length overruns in C++; the model keeps the
bytes that fit. -/
def FECEncoder.fillBlock (blk : FECBlock) (slice : List Byte) : FECBlock :=
  { blk with payload := slice.take blk.hdr.length }

/-- The per-group shard size computed by encode_blocks (fec.cc line 81):
`block_size = max(block_size, uint16_t(h.length + 2))` over the group. -/
def blockSizeOf (l : List FECBlock) : Nat :=
  l.foldl (fun acc b => max acc ((b.hdr.length + 2) % 65536)) 0

/-- encode_blocks() (fec.cc lines 69-105): stamp n_blocks on the buffered
data blocks, emit them, build the parity blocks, run the kernel into their
FEC regions, emit them, advance the sequence number and clear the buffer. -/
def FECEncoder.encode_blocks (K : Kernel) (e : FECEncoder) : FECEncoder :=
  let num_blocks := e.m_in_blocks.length % 256
  if num_blocks = 0 then e
  else
    let block_size := blockSizeOf e.m_in_blocks
    let datas := e.m_in_blocks.map fun b =>
      { b with hdr := { b.hdr with n_blocks := num_blocks } }
    let fecOuts := K.enc block_size (datas.map FECBlock.fecData) e.m_num_fec_blocks
    let fecs := (List.range e.m_num_fec_blocks).map fun i =>
      (mkBlock e.m_seq_num (num_blocks + i) num_blocks e.m_num_fec_blocks
        (block_size - 2)).withFec block_size (fecOuts.getD i [])
    { e with
      m_out_blocks := e.m_out_blocks ++ datas ++ fecs
      m_seq_num := nextSeq e.m_seq_num
      m_in_blocks := [] }

/-- add_block(block) (fec.cc lines 33-52): re-stamp the block index; with FEC
disabled push straight to output and advance the sequence (skipping 0),
otherwise buffer the block and run encode_blocks on the group-filling one. -/
def FECEncoder.add_block (K : Kernel) (e : FECEncoder) (blk0 : FECBlock) :
    FECEncoder :=
  let blk := { blk0 with hdr := { blk0.hdr with block := e.m_in_blocks.length % 256 } }
  if e.m_num_fec_blocks = 0 ∨ e.m_num_blocks = 0 then
    { e with m_out_blocks := e.m_out_blocks ++ [blk], m_seq_num := nextSeq e.m_seq_num }
  else
    let e' := { e with m_in_blocks := e.m_in_blocks ++ [blk] }
    if blk.hdr.block = e'.m_num_blocks - 1 then e'.encode_blocks K else e'

/-- flush() (fec.cc line 65). -/
def FECEncoder.flush (K : Kernel) (e : FECEncoder) : FECEncoder :=
  e.encode_blocks K

/-!  ## FECBufferEncoder (fec.cc lines 333-383)  -/

/-- The buffer encoder's persistent state (the missing fec.hh members that
fec.cc uses): the maximum shard size and the running uint8_t sequence
number, which the spec (section 4.4) starts at 1.  The floating-point
`m_fec_ratio` member is replaced by direct parametrization over the parity
count it produces, `nfec = uint8_t(ceil(nblocks * m_fec_ratio))`. -/
structure FECBufferEncoder where
  m_max_block_size : Nat
  m_seq_num : Nat
  deriving Repr, DecidableEq

/-- The uint32_t shard count of encode_buffer (fec.cc lines 339-340):
`uint32_t block_size = m_max_block_size; uint32_t nblocks = len /
block_size;` — both assignments store into uint32_t variables, so the
stored values are the size_t quantities truncated mod 2^32.  This is the
value the `nblocks > 255` rejection at line 343 tests. -/
def bufferNblocks32 (maxBS len : Nat) : Nat :=
  len / (maxBS % 2 ^ 32) % 2 ^ 32

/-- The shard count / shard size computation of encode_buffer
(fec.cc lines 339-355), after the `nblocks > 255` rejection: returns
(nblocks, block_size).  Every assignment lands in a uint32_t variable, so
each stored value is truncated mod 2^32: `block_size = len` (line 347)
stores len mod 2^32, `block_size = len / nblocks` (line 351) truncates the
size_t quotient, and the product in `(nblocks * block_size) < len`
(line 352) is computed in 32-bit unsigned arithmetic.  The reassignment
`nblocks = len / block_size` at line 350 recomputes the value nblocks
already holds and is folded into it. -/
def bufferShape (maxBS len : Nat) : Nat × Nat :=
  let block_size := maxBS % 2 ^ 32
  let nblocks := bufferNblocks32 maxBS len
  if nblocks = 0 then (1, len % 2 ^ 32)
  else if len % block_size ≠ 0 then
    let block_size := len / nblocks % 2 ^ 32
    if nblocks * block_size % 2 ^ 32 < len then (nblocks + 1, block_size)
    else (nblocks, block_size)
  else (nblocks, block_size)

/-- One iteration of the encode_buffer loop (fec.cc lines 366-374): slice
the payload bytes `[start, end)` with `uint32_t start = b * block_size`
and `uint32_t end = min(start + block_size, (uint32_t)len)` out of the
buffer, fill a fresh block with them, and feed it to the encoder.  start,
end and the cast buffer length are uint32_t values, so each is truncated
mod 2^32.  When the truncations leave end < start the C++
`std::copy(buf.begin() + start, buf.begin() + end, ...)` runs on an
invalid iterator range (undefined behaviour); the model clamps that slice
to empty via truncated subtraction. -/
def encStep (K : Kernel) (bs : Nat) (buf : List Byte) (e : FECEncoder)
    (b : Nat) : FECEncoder :=
  let start := b * bs % 2 ^ 32
  let stop := min ((start + bs) % 2 ^ 32) (buf.length % 2 ^ 32)
  let blk := FECEncoder.fillBlock (e.get_next_block (stop - start))
    ((buf.drop start).take (stop - start))
  e.add_block K blk

/-- encode_buffer(buf) (fec.cc lines 333-383): reject buffers whose
uint32_t-truncated shard count `uint32_t nblocks = len / block_size`
exceeds 255 (lines 340-345), choose the group shape, drive a fresh
FECEncoder over the payload slices, and return the drained output together
with the updated encoder state.  `nfec` stands for
`uint8_t(ceil(nblocks * m_fec_ratio))` (floating point in C++,
parametrized here). -/
def FECBufferEncoder.encode_buffer (K : Kernel) (nfec : Nat)
    (st : FECBufferEncoder) (buf : List Byte) :
    List FECBlock × FECBufferEncoder :=
  let len := buf.length
  if bufferNblocks32 st.m_max_block_size len > 255 then ([], st)
  else
    let shape := bufferShape st.m_max_block_size len
    let st' : FECBufferEncoder := { st with m_seq_num := nextSeq st.m_seq_num }
    let encF := (List.range shape.1).foldl (encStep K shape.2 buf)
      (FECEncoder.init shape.1 nfec st.m_seq_num)
    (encF.m_out_blocks, st')

/-!  ## FECDecoder (fec.cc lines 112-304)  -/

/-- Modelled from the spec: the decoder statistics (`FECDecoderStats` in the
missing fec.hh; spec section 3.4 lists the six counters).  Inside the
decoder the counters are modelled as unbounded naturals; the fixed-width
unsigned arithmetic of operator+/operator- (fec.cc lines 306-326) is
modelled separately below. -/
structure FECDecoderStats where
  total_packets : Nat := 0
  total_blocks : Nat := 0
  dropped_packets : Nat := 0
  dropped_blocks : Nat := 0
  lost_sync : Nat := 0
  bytes : Nat := 0
  deriving Repr, DecidableEq, Inhabited

/-- The decoder's state (members forced by fec.cc): the active group's shard
size (0 means no active group), the received data and FEC shards, the
previously seen header, the output queue (front first) and the statistics. -/
structure FECDecoder where
  m_block_size : Nat
  m_prev_header : FECHeader
  m_blocks : List FECBlock
  m_fec_blocks : List FECBlock
  m_out_blocks : List FECBlock
  m_stats : FECDecoderStats
  deriving Repr, DecidableEq

/-- FECDecoder() (fec.cc line 112): no active group, default-zero previous
header, empty buffers, zero statistics. -/
def FECDecoder.init : FECDecoder :=
  ⟨0, default, [], [], [], default⟩

/-- The sequence unrolling of add_block (fec.cc lines 122-126): the current
8-bit sequence number, plus 256 when the previous one is larger. -/
def unrolledSeq (prev cur : Nat) : Nat :=
  if prev > cur then cur + 256 else cur

/-- The data-pointer table built by decode() (fec.cc lines 247-252):
`blocks[block->header()->block] = block` over m_blocks in order, so for each
slot the last received block with that index wins. -/
def slotOf (d : FECDecoder) (i : Nat) : Option FECBlock :=
  (d.m_blocks.filter fun b => b.hdr.block = i).getLast?

/-- The erased-index list built by decode() (fec.cc lines 256-265): the
indices below m_blocks[0]'s n_blocks whose slot received no data block. -/
def decodeErased (d : FECDecoder) : List Nat :=
  (List.range (d.m_blocks.headD default).hdr.n_blocks).filter fun i =>
    slotOf d i = Option.none

/-- The reconstructed block table after fec_decode (fec.cc lines 259-283):
received slots keep their block; erased slots are synthesized placeholders
whose FEC region the kernel overwrote. -/
def slotAfterDecode (K : Kernel) (d : FECDecoder) (i : Nat) : FECBlock :=
  let h := (d.m_blocks.headD default).hdr
  let nb := h.n_blocks
  let erased := decodeErased d
  let ptrs := (List.range nb).map fun j =>
    match slotOf d j with
    | Option.some b => b.fecData
    | Option.none => List.replicate d.m_block_size 0
  let fecIdxs := d.m_fec_blocks.map fun b =>
    (b.hdr.block + 256 - b.hdr.n_blocks) % 256
  let outs := K.dec d.m_block_size ptrs (d.m_fec_blocks.map FECBlock.fecData)
    fecIdxs erased
  match slotOf d i with
  | Option.some b => b
  | Option.none =>
      (mkErased h d.m_block_size).withFec d.m_block_size
        (outs.getD (erased.indexOf i) [])

/-- The emission test of decode()'s final loop (fec.cc line 288): a
reconstructed-or-held block is pushed when its length field is at most
m_block_size. -/
def emitOk (d : FECDecoder) (b : FECBlock) : Bool :=
  b.dataLength ≤ d.m_block_size

/-- decode() (fec.cc lines 229-294).  The final loop starts at
erased_block_idxs[0]; when the erased list is empty that read is out of
bounds in C++ (undefined behaviour) — the model emits nothing in that case. -/
def FECDecoder.decode (K : Kernel) (d : FECDecoder) : FECDecoder :=
  if d.m_blocks = [] then d
  else
    let h := (d.m_blocks.headD default).hdr
    if h.n_blocks > d.m_blocks.length + d.m_fec_blocks.length then
      { d with m_stats :=
          { d.m_stats with lost_sync := d.m_stats.lost_sync + 1 } }
    else if h.n_blocks = 0 ∨ h.n_fec_blocks = 0 then d
    else
      match decodeErased d with
      | [] => d
      | e0 :: _ =>
          let idxs := (List.range h.n_blocks).drop e0
          let emitted := idxs.filterMap fun i =>
            let b := slotAfterDecode K d i
            if emitOk d b then Option.some b else Option.none
          let nDropped := (idxs.filter fun i =>
            ¬ emitOk d (slotAfterDecode K d i)).length
          { d with
            m_out_blocks := d.m_out_blocks ++ emitted
            m_stats := { d.m_stats with
              dropped_blocks := d.m_stats.dropped_blocks + nDropped } }

/-- The tail of add_block from the `ph = h` assignment on (fec.cc lines
174-227): record skipped leading packets, pass through when FEC is off,
update the group shard size, then handle a data or FEC block. -/
def FECDecoder.ingest (K : Kernel) (d0 : FECDecoder) (blk : FECBlock) :
    FECDecoder :=
  let h := blk.hdr
  let d1 := { d0 with m_prev_header := h }
  let d2 :=
    if d1.m_block_size = 0 then
      { d1 with m_stats := { d1.m_stats with
          dropped_packets := d1.m_stats.dropped_packets + h.block } }
    else d1
  if h.n_blocks = 0 ∨ h.n_fec_blocks = 0 then
    { d2 with m_out_blocks := d2.m_out_blocks ++ [blk] }
  else
    let d3 := { d2 with m_block_size := max d2.m_block_size blk.blockSize }
    if blk.isData then
      let d4 := { d3 with m_blocks := d3.m_blocks ++ [blk] }
      let d5 :=
        if d4.m_blocks.length - 1 = h.block then
          { d4 with m_out_blocks := d4.m_out_blocks ++ [blk] }
        else d4
      if d5.m_blocks.length = h.n_blocks then
        { d5 with
          m_block_size := 0, m_blocks := [], m_fec_blocks := []
          m_stats := { d5.m_stats with
            total_blocks := d5.m_stats.total_blocks + 1 } }
      else d5
    else
      let d4 := { d3 with m_fec_blocks := d3.m_fec_blocks ++ [blk] }
      if d4.m_blocks.length + d4.m_fec_blocks.length = h.n_blocks then
        let d5 := d4.decode K
        { d5 with
          m_block_size := 0, m_blocks := [], m_fec_blocks := []
          m_stats := { d5.m_stats with
            total_blocks := d5.m_stats.total_blocks + 1 } }
      else d4

/-- add_block(buf, block_length) (fec.cc lines 116-227): parse the packet,
bump total_packets/bytes, then do the sequence bookkeeping — on an active
group a sequence change either flags lost sync (backward) or estimates the
dropped packets and blocks (forward) and resets the group, while an in-group
block records duplicates and gaps; with no active group a repeated sequence
belongs to the already-completed group and is skipped. -/
def FECDecoder.add_block (K : Kernel) (d : FECDecoder) (buf : List Byte)
    (block_length : Nat) : FECDecoder :=
  let blk := FECBlock.ofWire buf block_length
  let h := blk.hdr
  let ph := d.m_prev_header
  let prevSeq := ph.seq_num
  let curSeq := unrolledSeq ph.seq_num h.seq_num
  let d0 := { d with m_stats := { d.m_stats with
    total_packets := d.m_stats.total_packets + 1
    bytes := d.m_stats.bytes + block_length } }
  if d0.m_block_size ≠ 0 then
    if prevSeq ≠ curSeq then
      let d1 :=
        if curSeq < prevSeq then
          { d0 with m_stats := { d0.m_stats with
              lost_sync := d0.m_stats.lost_sync + 1 } }
        else
          let pbn := prevSeq * (h.n_blocks + h.n_fec_blocks) + ph.block
          let bn := curSeq * (h.n_blocks + h.n_fec_blocks) + h.block
          { d0 with m_stats := { d0.m_stats with
              dropped_blocks := d0.m_stats.dropped_blocks + (curSeq - prevSeq)
              dropped_packets := d0.m_stats.dropped_packets +
                (if pbn < bn then bn - pbn else 0) } }
      FECDecoder.ingest K
        { d1 with m_block_size := 0, m_blocks := [], m_fec_blocks := [] } blk
    else if h.block ≤ ph.block then
      FECDecoder.ingest K
        { d0 with m_stats := { d0.m_stats with
            dropped_packets := d0.m_stats.dropped_packets + 1 } } blk
    else
      FECDecoder.ingest K
        { d0 with m_stats := { d0.m_stats with
            dropped_packets := d0.m_stats.dropped_packets +
              ((h.block - ph.block) - 1) } } blk
  else if prevSeq = curSeq then
    { d0 with m_prev_header := h }
  else
    FECDecoder.ingest K d0 blk

/-- get_block() (fec.cc lines 297-304): pop the front of the output queue. -/
def FECDecoder.get_block (d : FECDecoder) : Option FECBlock × FECDecoder :=
  match d.m_out_blocks with
  | [] => (Option.none, d)
  | b :: rest => (Option.some b, { d with m_out_blocks := rest })

/-- One externally visible decoder operation: add_block on a wire packet, or
get_block. -/
inductive DecOp where
  | add (buf : List Byte) (block_length : Nat) : DecOp
  | get : DecOp

/-- Run one decoder operation. -/
def FECDecoder.runOp (K : Kernel) (d : FECDecoder) : DecOp → FECDecoder
  | DecOp.add buf len => d.add_block K buf len
  | DecOp.get => d.get_block.2

/-- Run a sequence of decoder operations. -/
def FECDecoder.runOps (K : Kernel) (d : FECDecoder) (ops : List DecOp) :
    FECDecoder :=
  ops.foldl (FECDecoder.runOp K) d

/-- Feed a list of wire packets through add_block. -/
def FECDecoder.addAll (K : Kernel) (d : FECDecoder)
    (pkts : List (List Byte)) : FECDecoder :=
  pkts.foldl (fun d p => d.add_block K p p.length) d

/-!  ## FECDecoderStats arithmetic (fec.cc lines 306-326)  -/

/-- Modelled from the spec: the statistics counters are fixed-width unsigned
integers (the widths live in the missing fec.hh); we take the 64-bit width
of size_t. -/
def statW : Nat := 2 ^ 64

/-- C++ unsigned addition at width statW. -/
def uAdd (a b : Nat) : Nat := (a + b) % statW

/-- C++ unsigned subtraction at width statW (for reduced operands). -/
def uSub (a b : Nat) : Nat := (a % statW + (statW - b % statW)) % statW

/-- operator+(s1, s2) (fec.cc lines 317-326): field-wise unsigned addition. -/
def FECDecoderStats.add (a b : FECDecoderStats) : FECDecoderStats :=
  ⟨uAdd a.total_packets b.total_packets, uAdd a.total_blocks b.total_blocks,
   uAdd a.dropped_packets b.dropped_packets, uAdd a.dropped_blocks b.dropped_blocks,
   uAdd a.lost_sync b.lost_sync, uAdd a.bytes b.bytes⟩

/-- operator-(s1, s2) (fec.cc lines 306-315): field-wise unsigned
subtraction. -/
def FECDecoderStats.sub (a b : FECDecoderStats) : FECDecoderStats :=
  ⟨uSub a.total_packets b.total_packets, uSub a.total_blocks b.total_blocks,
   uSub a.dropped_packets b.dropped_packets, uSub a.dropped_blocks b.dropped_blocks,
   uSub a.lost_sync b.lost_sync, uSub a.bytes b.bytes⟩

/-- A statistics value representable in the counters' width. -/
def FECDecoderStats.wf (s : FECDecoderStats) : Prop :=
  s.total_packets < statW ∧ s.total_blocks < statW ∧
  s.dropped_packets < statW ∧ s.dropped_blocks < statW ∧
  s.lost_sync < statW ∧ s.bytes < statW

/-- Field-wise order on statistics, for the monotonicity claim. -/
def FECDecoderStats.le (a b : FECDecoderStats) : Prop :=
  a.total_packets ≤ b.total_packets ∧ a.total_blocks ≤ b.total_blocks ∧
  a.dropped_packets ≤ b.dropped_packets ∧ a.dropped_blocks ≤ b.dropped_blocks ∧
  a.lost_sync ≤ b.lost_sync ∧ a.bytes ≤ b.bytes

/-- Serialize a packet by hand: header bytes, little-endian length, payload
(the wire format of spec section 6.1).  Used to build concrete scenarios. -/
def mkWire (seq blk nb nfb len : Nat) (payload : List Byte) : List Byte :=
  [seq, blk, nb, nfb, len % 256, len / 256 % 256] ++ payload

/-!  ## Theorems  -/

/-!  ### C4 — backward-sequence sync loss  -/

set_option maxRecDepth 100000 in
set_option maxHeartbeats 2000000 in
/-- C4 counterexample: the claim asserts that some pair of 8-bit sequence
values prev_seq, cur_seq in 1..255 makes the unrolled sequence strictly
smaller than prev_seq.  No pair of 8-bit values does (checked exhaustively
over 0..255, a superset of 1..255): the branch at fec.cc line 138 is
unreachable. -/
theorem C4_counterexample :
    ((List.range 256).all fun p => (List.range 256).all fun c =>
      ! decide (unrolledSeq p c < p)) = true := by
  decide

/-- C4 amended: while a group is active, a strictly smaller unrolled
sequence would increment lost_sync and discard the group, but the case is
unreachable — for all 8-bit prev_seq and cur_seq the unrolled sequence
`unrolledSeq prev cur` (fec.cc lines 122-126) is at least prev_seq, so the
backward-sequence lost_sync increment at fec.cc line 139 never fires. -/
theorem C4_backward_unreachable (prev cur : Nat) (hp : prev ≤ 255)
    (hc : cur ≤ 255) : ¬ unrolledSeq prev cur < prev := by
  unfold unrolledSeq
  split <;> omega

/-- Witness for C4_backward_unreachable at prev = 255, cur = 1 (a wrap,
the nearest thing to a backward step). -/
theorem C4_witness : (255 : Nat) ≤ 255 ∧ (1 : Nat) ≤ 255 ∧
    ¬ unrolledSeq 255 1 < 255 :=
  ⟨by decide, by decide, C4_backward_unreachable 255 1 (by decide) (by decide)⟩

/-!  ### C6 — buffer-too-large rejection is atomic  -/

/-- C6 (amended): the buffer-too-large rejection tests the uint32_t shard
count of fec.cc line 340: whenever `(uint32_t)(len / max_shard_size)`
exceeds 255, encode_buffer returns the empty shard sequence with the
encoder state — in particular its running seq_num — unchanged (the check
at lines 343-345 runs before any state update).  For buffer lengths and
shard sizes below 2^32 the truncated count coincides with the exact
quotient len / max_shard_size, recovering the original claim there; for
len ≥ 2^32 × max_shard_size the truncation wraps and the rejection is
skipped (see the counterexample). -/
theorem C6_reject_atomic (K : Kernel) (nfec : Nat) (st : FECBufferEncoder)
    (buf : List Byte)
    (h : bufferNblocks32 st.m_max_block_size buf.length > 255) :
    st.encode_buffer K nfec buf = ([], st) ∧
    (buf.length < 2 ^ 32 → st.m_max_block_size < 2 ^ 32 →
      bufferNblocks32 st.m_max_block_size buf.length =
        buf.length / st.m_max_block_size) := by
  constructor
  · unfold FECBufferEncoder.encode_buffer
    simp only [if_pos h]
  · intro hl hm
    unfold bufferNblocks32
    rw [Nat.mod_eq_of_lt hm]
    exact Nat.mod_eq_of_lt (lt_of_le_of_lt (Nat.div_le_self _ _) hl)

set_option maxRecDepth 10000 in
/-- Witness for C6_reject_atomic: max_shard_size 1 and a 256-byte buffer
(= 256 × max_shard_size, the spec's S6 input). -/
theorem C6_witness :
    bufferNblocks32 (FECBufferEncoder.mk 1 1).m_max_block_size
      (List.replicate 256 (0 : Nat)).length > 255 ∧
    ((FECBufferEncoder.mk 1 1).encode_buffer Kzero 3 (List.replicate 256 (0 : Nat)) =
        ([], FECBufferEncoder.mk 1 1) ∧
      ((List.replicate 256 (0 : Nat)).length < 2 ^ 32 →
        (FECBufferEncoder.mk 1 1).m_max_block_size < 2 ^ 32 →
        bufferNblocks32 (FECBufferEncoder.mk 1 1).m_max_block_size
          (List.replicate 256 (0 : Nat)).length =
          (List.replicate 256 (0 : Nat)).length /
            (FECBufferEncoder.mk 1 1).m_max_block_size)) :=
  ⟨by decide, C6_reject_atomic Kzero 3 ⟨1, 1⟩ (List.replicate 256 0) (by decide)⟩

/-!  ### C8 — statistics arithmetic  -/

/-- Unsigned wrap-around: subtracting after adding restores the value. -/
theorem uSub_uAdd (x y : Nat) (hx : x < statW) (hy : y < statW) :
    uSub (uAdd x y) y = x := by
  unfold uAdd uSub statW at *
  omega

/-- Unsigned wrap-around: adding after subtracting restores the value. -/
theorem uAdd_uSub (x y : Nat) (hx : x < statW) (hy : y < statW) :
    uAdd (uSub x y) y = x := by
  unfold uAdd uSub statW at *
  omega

/-- C8: for representable decoder-statistics values, operator- is the
field-wise inverse of operator+ under the counters' fixed-width unsigned
wrap-around: (a + b) - b = a and (a - b) + b = a, so interval reporting by
differencing snapshots is exact. -/
theorem C8_stats_add_sub_inverse (a b : FECDecoderStats) (ha : a.wf)
    (hb : b.wf) : (a.add b).sub b = a ∧ (a.sub b).add b = a := by
  obtain ⟨a1, a2, a3, a4, a5, a6⟩ := a
  obtain ⟨b1, b2, b3, b4, b5, b6⟩ := b
  obtain ⟨ha1, ha2, ha3, ha4, ha5, ha6⟩ := ha
  obtain ⟨hb1, hb2, hb3, hb4, hb5, hb6⟩ := hb
  simp only [FECDecoderStats.add, FECDecoderStats.sub, FECDecoderStats.mk.injEq]
  exact ⟨⟨uSub_uAdd _ _ ha1 hb1, uSub_uAdd _ _ ha2 hb2, uSub_uAdd _ _ ha3 hb3,
          uSub_uAdd _ _ ha4 hb4, uSub_uAdd _ _ ha5 hb5, uSub_uAdd _ _ ha6 hb6⟩,
         ⟨uAdd_uSub _ _ ha1 hb1, uAdd_uSub _ _ ha2 hb2, uAdd_uSub _ _ ha3 hb3,
          uAdd_uSub _ _ ha4 hb4, uAdd_uSub _ _ ha5 hb5, uAdd_uSub _ _ ha6 hb6⟩⟩

/-- Witness for C8_stats_add_sub_inverse at two concrete statistics values. -/
theorem C8_witness :
    (FECDecoderStats.mk 10 2 3 1 0 5000).wf ∧
    (FECDecoderStats.mk 7 1 2 1 0 900).wf ∧
    ((FECDecoderStats.mk 10 2 3 1 0 5000).add (FECDecoderStats.mk 7 1 2 1 0 900)).sub
        (FECDecoderStats.mk 7 1 2 1 0 900) = FECDecoderStats.mk 10 2 3 1 0 5000 ∧
    ((FECDecoderStats.mk 10 2 3 1 0 5000).sub (FECDecoderStats.mk 7 1 2 1 0 900)).add
        (FECDecoderStats.mk 7 1 2 1 0 900) = FECDecoderStats.mk 10 2 3 1 0 5000 := by
  refine ⟨?_, ?_, ?_⟩
  · refine ⟨?_, ?_, ?_, ?_, ?_, ?_⟩ <;> decide
  · refine ⟨?_, ?_, ?_, ?_, ?_, ?_⟩ <;> decide
  · exact C8_stats_add_sub_inverse _ _
      (⟨by decide, by decide, by decide, by decide, by decide, by decide⟩)
      (⟨by decide, by decide, by decide, by decide, by decide, by decide⟩)

/-!  ### Shared decoder lemmas  -/

/-- decode() returns immediately when no data block was received
(fec.cc lines 230-232). -/
theorem decode_of_no_blocks (K : Kernel) (d : FECDecoder)
    (h : d.m_blocks = []) : d.decode K = d := by
  unfold FECDecoder.decode
  rw [if_pos h]

/-- Effect of the ingest tail on the two dropped counters when the group
state was just reset: only the fresh-group skip `+ h.block` of fec.cc
line 178 can fire. -/
theorem ingest_dropped_of_reset (K : Kernel) (d : FECDecoder) (blk : FECBlock)
    (hbs : d.m_block_size = 0) (hblocks : d.m_blocks = []) :
    (d.ingest K blk).m_stats.dropped_packets
        = d.m_stats.dropped_packets + blk.hdr.block ∧
    (d.ingest K blk).m_stats.dropped_blocks = d.m_stats.dropped_blocks := by
  unfold FECDecoder.ingest
  simp only [hbs, hblocks, if_pos]
  split
  · simp
  · split
    · split <;> split <;> simp
    · split
      · rw [decode_of_no_blocks]
        · simp
        · simp [hblocks]
      · simp

/-- Characterization of a successful decode() run (fec.cc lines 229-294):
with a sane group and a nonempty erased list `e0 :: es`, the emission loop
appends, for each index from `e0` to `n_blocks - 1`, the held or
reconstructed block when its length field passes `emitOk`, and counts one
dropped block for each index that fails it. -/
theorem decode_run (K : Kernel) (d : FECDecoder) (b0 : FECBlock)
    (tl : List FECBlock) (e0 : Nat) (es : List Nat)
    (hb : d.m_blocks = b0 :: tl)
    (hn : b0.hdr.n_blocks ≤ d.m_blocks.length + d.m_fec_blocks.length)
    (hnz1 : b0.hdr.n_blocks ≠ 0) (hnz2 : b0.hdr.n_fec_blocks ≠ 0)
    (he : decodeErased d = e0 :: es) :
    (d.decode K).m_out_blocks = d.m_out_blocks ++
      (((List.range b0.hdr.n_blocks).drop e0).filterMap fun i =>
        if emitOk d (slotAfterDecode K d i) then Option.some (slotAfterDecode K d i)
        else Option.none) ∧
    (d.decode K).m_stats.dropped_blocks = d.m_stats.dropped_blocks +
      (((List.range b0.hdr.n_blocks).drop e0).filter fun i =>
        ¬ emitOk d (slotAfterDecode K d i)).length := by
  unfold FECDecoder.decode
  rw [if_neg (by simp [hb])]
  simp only [hb, List.headD_cons]
  rw [if_neg (by rw [hb] at hn; simp at hn ⊢; omega)]
  rw [if_neg (by simp [hnz1, hnz2])]
  rw [he]
  simp

/-- Pigeonhole for the decoder's erased-index table: when a data block and
at least one FEC block are held while data + FEC counts add up to
m_blocks[0]'s n_blocks, fewer than n_blocks data slots can be filled, so the
erased list of decode() is nonempty. -/
theorem erased_nonempty (d : FECDecoder) (b0 : FECBlock) (tl : List FECBlock)
    (hb : d.m_blocks = b0 :: tl)
    (hcnt : d.m_blocks.length + d.m_fec_blocks.length = b0.hdr.n_blocks)
    (hfec : d.m_fec_blocks ≠ []) : decodeErased d ≠ [] := by
  intro hnil
  unfold decodeErased at hnil
  rw [hb] at hnil
  simp only [List.headD_cons] at hnil
  rw [List.filter_eq_nil_iff] at hnil
  have hsub : (List.range b0.hdr.n_blocks) ⊆ d.m_blocks.map fun b => b.hdr.block := by
    intro i hi
    have hsome : slotOf d i ≠ Option.none := by
      have := hnil i hi
      simpa using this
    obtain ⟨b, hbeq⟩ := Option.ne_none_iff_exists'.mp hsome
    have hmemf : b ∈ d.m_blocks.filter fun x => x.hdr.block = i :=
      List.mem_of_mem_getLast? hbeq
    rw [List.mem_filter] at hmemf
    exact List.mem_map.mpr ⟨b, hmemf.1, by simpa using hmemf.2⟩
  have hlen := ((List.nodup_range _).subperm hsub).length_le
  rw [List.length_range, List.length_map] at hlen
  have hpos : 0 < d.m_fec_blocks.length := List.length_pos.mpr hfec
  omega

/-!  ### C2 — scenario S4 (4+2 group delivered as 0,1,3,2,parity0)  -/

/-- The S4 delivery: one 4+2 group with unit payloads, data shards in block
order 0, 1, 3, 2, then parity shard 0 (block index 4). -/
def s4pkts : List (List Byte) :=
  [mkWire 1 0 4 2 1 [11], mkWire 1 1 4 2 1 [12], mkWire 1 3 4 2 1 [14],
   mkWire 1 2 4 2 1 [13], mkWire 1 4 4 2 1 [15]]

set_option maxRecDepth 10000 in
/-- C2 counterexample: delivering the S4 sequence to a fresh decoder does
not emit blocks 0,1,2,3 and does not increment dropped_packets exactly once
— the decoder emits only blocks 0 and 1 and counts two dropped packets. -/
theorem C2_counterexample :
    ¬ ((((FECDecoder.init.addAll Kzero s4pkts).m_out_blocks.map
          fun b => b.hdr.block) = [0, 1, 2, 3]) ∧
       (FECDecoder.init.addAll Kzero s4pkts).m_stats.dropped_packets = 1) := by
  decide

set_option maxRecDepth 10000 in
/-- C2 amended: in the S4 delivery 0,1,3,2,parity0 the decoder emits only
blocks 0 and 1 (the fast path); shard 3 arriving before 2 adds one dropped
packet (in-group gap) and shard 2 arriving after 3 adds another (the
`block <= prev.block` branch); the four data shards close the group by
count without re-emitting 2 and 3, no erasure decode runs, and the trailing
parity shard is skipped silently.  Final statistics: 5 packets, 1 block,
2 dropped packets, 0 dropped blocks, 0 lost sync, 35 bytes. -/
theorem C2_reordered_group_behavior :
    (((FECDecoder.init.addAll Kzero s4pkts).m_out_blocks.map
        fun b => b.hdr.block) = [0, 1]) ∧
    (FECDecoder.init.addAll Kzero s4pkts).m_stats =
      ⟨5, 1, 2, 0, 0, 35⟩ := by
  decide

/-!  ### C5 — drop accounting on a forward sequence break  -/

/-- C5 amended: on an active group, a shard whose unrolled sequence is
strictly greater than the previous sequence makes dropped_packets grow by
exactly the clamped block-number difference PLUS the arriving shard's block
index (the group reset re-runs the fresh-group skip of fec.cc line 178),
and dropped_blocks grow by exactly the sequence difference. -/
theorem C5_forward_break (K : Kernel) (d : FECDecoder) (buf : List Byte)
    (len : Nat) (hbs : d.m_block_size ≠ 0)
    (hfwd : d.m_prev_header.seq_num
      < unrolledSeq d.m_prev_header.seq_num (FECBlock.ofWire buf len).hdr.seq_num) :
    ((d.add_block K buf len).m_stats.dropped_packets
        = d.m_stats.dropped_packets +
          ((unrolledSeq d.m_prev_header.seq_num (FECBlock.ofWire buf len).hdr.seq_num *
              ((FECBlock.ofWire buf len).hdr.n_blocks + (FECBlock.ofWire buf len).hdr.n_fec_blocks) +
            (FECBlock.ofWire buf len).hdr.block) -
           (d.m_prev_header.seq_num *
              ((FECBlock.ofWire buf len).hdr.n_blocks + (FECBlock.ofWire buf len).hdr.n_fec_blocks) +
            d.m_prev_header.block)) +
          (FECBlock.ofWire buf len).hdr.block) ∧
    ((d.add_block K buf len).m_stats.dropped_blocks
        = d.m_stats.dropped_blocks +
          (unrolledSeq d.m_prev_header.seq_num (FECBlock.ofWire buf len).hdr.seq_num
            - d.m_prev_header.seq_num)) := by
  unfold FECDecoder.add_block
  simp only [if_pos hbs]
  rw [if_pos (by omega : d.m_prev_header.seq_num ≠ unrolledSeq d.m_prev_header.seq_num (FECBlock.ofWire buf len).hdr.seq_num)]
  rw [if_neg (by omega : ¬ unrolledSeq d.m_prev_header.seq_num (FECBlock.ofWire buf len).hdr.seq_num < d.m_prev_header.seq_num)]
  have h := ingest_dropped_of_reset K
    { d with
      m_stats := { d.m_stats with
        total_packets := d.m_stats.total_packets + 1
        bytes := d.m_stats.bytes + len
        dropped_blocks := d.m_stats.dropped_blocks +
          (unrolledSeq d.m_prev_header.seq_num (FECBlock.ofWire buf len).hdr.seq_num - d.m_prev_header.seq_num)
        dropped_packets := d.m_stats.dropped_packets +
          (if d.m_prev_header.seq_num * ((FECBlock.ofWire buf len).hdr.n_blocks + (FECBlock.ofWire buf len).hdr.n_fec_blocks) + d.m_prev_header.block
              < unrolledSeq d.m_prev_header.seq_num (FECBlock.ofWire buf len).hdr.seq_num * ((FECBlock.ofWire buf len).hdr.n_blocks + (FECBlock.ofWire buf len).hdr.n_fec_blocks) + (FECBlock.ofWire buf len).hdr.block
           then unrolledSeq d.m_prev_header.seq_num (FECBlock.ofWire buf len).hdr.seq_num * ((FECBlock.ofWire buf len).hdr.n_blocks + (FECBlock.ofWire buf len).hdr.n_fec_blocks) + (FECBlock.ofWire buf len).hdr.block
             - (d.m_prev_header.seq_num * ((FECBlock.ofWire buf len).hdr.n_blocks + (FECBlock.ofWire buf len).hdr.n_fec_blocks) + d.m_prev_header.block)
           else 0) }
      m_block_size := 0, m_blocks := [], m_fec_blocks := [] }
    (FECBlock.ofWire buf len) rfl rfl
  refine ⟨?_, ?_⟩
  · rw [h.1]
    simp
    omega
  · rw [h.2]

/-- C5 counterexample: an active 2+1 group at sequence 1 (previous block 0)
receiving block 1 of sequence 2.  The claimed exact increase is
(2·3+1) − (1·3+0) = 4, but add_block also adds the arriving block index at
fec.cc line 178 after the reset, so dropped_packets grows from 0 to 5. -/
theorem C5_counterexample :
    (FECDecoder.init.addAll Kzero [mkWire 1 0 2 1 1 [7]]).m_block_size ≠ 0 ∧
    (FECDecoder.init.addAll Kzero [mkWire 1 0 2 1 1 [7]]).m_stats.dropped_packets = 0 ∧
    ((FECDecoder.init.addAll Kzero [mkWire 1 0 2 1 1 [7]]).add_block Kzero
        (mkWire 2 1 2 1 1 [8]) 7).m_stats.dropped_packets = 5 ∧
    ¬ ((5 : Nat) = 0 + (2 * (2 + 1) + 1 - (1 * (2 + 1) + 0))) := by
  refine ⟨by decide, by decide, by decide, by decide⟩

/-- Witness for C5_forward_break at the state of C5_counterexample. -/
theorem C5_witness :
    (FECDecoder.init.addAll Kzero [mkWire 1 0 2 1 1 [7]]).m_block_size ≠ 0 ∧
    (FECDecoder.init.addAll Kzero [mkWire 1 0 2 1 1 [7]]).m_prev_header.seq_num
      < unrolledSeq (FECDecoder.init.addAll Kzero [mkWire 1 0 2 1 1 [7]]).m_prev_header.seq_num
          (FECBlock.ofWire (mkWire 2 1 2 1 1 [8]) 7).hdr.seq_num ∧
    ((FECDecoder.init.addAll Kzero [mkWire 1 0 2 1 1 [7]]).add_block Kzero
        (mkWire 2 1 2 1 1 [8]) 7).m_stats.dropped_packets = 5 := by
  refine ⟨by decide, by decide, ?_⟩
  have h := (C5_forward_break Kzero (FECDecoder.init.addAll Kzero [mkWire 1 0 2 1 1 [7]])
    (mkWire 2 1 2 1 1 [8]) 7 (by decide) (by decide)).1
  rw [h]
  decide


/-!  ### C3 — post-reconstruction length filtering  -/

/-- A kernel whose reconstruction writes the length field S - 1 = 4 into the
single erased shard of a shard-size-5 group (the erasure kernel is external,
so any output is possible; spec section 4.1). -/
def Kc3 : Kernel := ⟨fun _ _ _ => [], fun _ _ _ _ _ => [[4, 0, 9, 9, 9]]⟩

/-- The C3 scenario: a 2+1 group with shard size S = 5; data shard 0
arrives, then parity shard 0 (block 2) triggers decode with block 1 erased. -/
def c3pkts : List (List Byte) :=
  [mkWire 1 0 2 1 3 [10, 20, 30], mkWire 1 2 2 1 3 [0, 0, 0]]

/-- The decoder state at the decode() call of the C3 scenario: data shard 0
held and emitted, parity shard appended, group shard size 5. -/
def c3state : FECDecoder :=
  { m_block_size := 5
    m_prev_header := (FECBlock.ofWire (mkWire 1 2 2 1 3 [0, 0, 0]) 9).hdr
    m_blocks := [FECBlock.ofWire (mkWire 1 0 2 1 3 [10, 20, 30]) 9]
    m_fec_blocks := [FECBlock.ofWire (mkWire 1 2 2 1 3 [0, 0, 0]) 9]
    m_out_blocks := [FECBlock.ofWire (mkWire 1 0 2 1 3 [10, 20, 30]) 9]
    m_stats := ⟨2, 0, 1, 0, 0, 18⟩ }

set_option maxRecDepth 10000 in
/-- C3 counterexample: in the C3 scenario (shard size S = 5) the kernel
reconstructs block 1 with length field S - 1 = 4.  The claim says a
reconstructed shard is pushed only if its length is at most S - 2 = 3 and
otherwise dropped_blocks is incremented — but the code (fec.cc line 288)
compares against m_block_size = S, so the shard IS pushed (two output
blocks, the second with length 4) and dropped_blocks stays 0. -/
theorem C3_counterexample :
    (FECDecoder.init.addAll Kc3 c3pkts).m_out_blocks.length = 2 ∧
    ((FECDecoder.init.addAll Kc3 c3pkts).m_out_blocks.getD 1 default).dataLength
      = 5 - 1 ∧
    ¬ ((5 : Nat) - 1 ≤ 5 - 2) ∧
    (FECDecoder.init.addAll Kc3 c3pkts).m_stats.dropped_blocks = 0 := by
  refine ⟨by decide, by decide, by decide, by decide⟩

/-- C3 amended: after erasure decoding of a group with shard size
S = m_block_size, for every data index from the first erased position up to
n_blocks - 1, the block is pushed to output if and only if its length field
satisfies length <= S (not S - 2: fec.cc line 288 compares against
m_block_size itself); each index failing the test adds 1 to dropped_blocks
and is not emitted. -/
theorem C3_emission_policy (K : Kernel) (d : FECDecoder) (b0 : FECBlock)
    (tl : List FECBlock) (e0 : Nat) (es : List Nat)
    (hb : d.m_blocks = b0 :: tl)
    (hn : b0.hdr.n_blocks ≤ d.m_blocks.length + d.m_fec_blocks.length)
    (hnz1 : b0.hdr.n_blocks ≠ 0) (hnz2 : b0.hdr.n_fec_blocks ≠ 0)
    (he : decodeErased d = e0 :: es) :
    (d.decode K).m_out_blocks = d.m_out_blocks ++
      (((List.range b0.hdr.n_blocks).drop e0).filterMap fun i =>
        if emitOk d (slotAfterDecode K d i) then Option.some (slotAfterDecode K d i)
        else Option.none) ∧
    (d.decode K).m_stats.dropped_blocks = d.m_stats.dropped_blocks +
      (((List.range b0.hdr.n_blocks).drop e0).filter fun i =>
        ¬ emitOk d (slotAfterDecode K d i)).length ∧
    ∀ b : FECBlock, emitOk d b = true ↔ b.dataLength ≤ d.m_block_size := by
  obtain ⟨h1, h2⟩ := decode_run K d b0 tl e0 es hb hn hnz1 hnz2 he
  refine ⟨h1, h2, ?_⟩
  intro b
  unfold emitOk
  simp

set_option maxRecDepth 10000 in
/-- Witness for C3_emission_policy at the C3 scenario state: the theorem
applied there, with a consequence evaluated — both output blocks (index 0
held, index 1 reconstructed with length 4 <= S) are present. -/
theorem C3_witness :
    c3state.m_blocks = FECBlock.ofWire (mkWire 1 0 2 1 3 [10, 20, 30]) 9 :: [] ∧
    decodeErased c3state = 1 :: [] ∧
    (c3state.decode Kc3).m_out_blocks.length = 2 ∧
    (c3state.decode Kc3).m_stats.dropped_blocks = 0 := by
  refine ⟨by decide, by decide, ?_, ?_⟩
  · have h := (C3_emission_policy Kc3 c3state
      (FECBlock.ofWire (mkWire 1 0 2 1 3 [10, 20, 30]) 9) [] 1 []
      (by decide) (by decide) (by decide) (by decide) (by decide)).1
    rw [h]
    decide
  · have h := (C3_emission_policy Kc3 c3state
      (FECBlock.ofWire (mkWire 1 0 2 1 3 [10, 20, 30]) 9) [] 1 []
      (by decide) (by decide) (by decide) (by decide) (by decide)).2.1
    rw [h]
    decide

/-!  ### C9 — erasure-decode safety  -/

/-- The C9 scenario: a group started by a data shard claiming n_blocks = 2,
followed by a data shard claiming n_blocks = 3. -/
def c9pkts : List (List Byte) :=
  [mkWire 1 0 2 1 1 [5], mkWire 1 1 3 1 1 [6]]

/-- Decoder state after the two C9 data shards. -/
def c9s2 : FECDecoder := FECDecoder.init.addAll Kzero c9pkts

/-- The parity shard whose arrival triggers decode() in the C9 scenario:
block 3 with n_blocks = 3, so data + FEC counts reach its n_blocks. -/
def c9par : FECBlock := FECBlock.ofWire (mkWire 1 3 3 1 1 [7]) 7

set_option maxRecDepth 10000 in
/-- C9 counterexample: headers need not be consistent within a group.  After
the two C9 data shards (n_blocks 2 and 3), the parity shard c9par is not a
data block and makes data + FEC counts equal ITS n_blocks = 3, so add_block
invokes decode(); but decode() reads n_blocks = 2 from m_blocks[0], finds
both data slots filled, and builds an EMPTY erased-index list — the C++ read
erased_block_idxs[0] at fec.cc line 286 is out of bounds, and nothing below
any erasure can be emitted (the full run emits nothing beyond the two
fast-path shards). -/
theorem C9_counterexample :
    c9s2.m_block_size ≠ 0 ∧
    c9par.isData = false ∧
    c9s2.m_blocks.length + (c9s2.m_fec_blocks.length + 1) = c9par.hdr.n_blocks ∧
    decodeErased { c9s2 with
      m_prev_header := c9par.hdr
      m_block_size := max c9s2.m_block_size c9par.blockSize
      m_fec_blocks := c9s2.m_fec_blocks ++ [c9par] } = [] ∧
    (FECDecoder.init.addAll Kzero (c9pkts ++ [mkWire 1 3 3 1 1 [7]])).m_out_blocks.length = 2 := by
  refine ⟨by decide, by decide, by decide, by decide, by decide⟩

/-- C9 amended: when decode() runs on a group whose received data and FEC
shard counts add up to m_blocks[0]'s n_blocks with at least one FEC shard
held (the add_block trigger under consistent group headers), at least one
data slot is unfilled, so the erased-index list is nonempty — the C++ access
to its first element is in bounds — and the emission loop only ranges over
indices from that first erased position upward. -/
theorem C9_decode_safety (K : Kernel) (d : FECDecoder) (b0 : FECBlock)
    (tl : List FECBlock) (hb : d.m_blocks = b0 :: tl)
    (hcnt : d.m_blocks.length + d.m_fec_blocks.length = b0.hdr.n_blocks)
    (hfec : d.m_fec_blocks ≠ []) (hnz2 : b0.hdr.n_fec_blocks ≠ 0) :
    ∃ e0 es, decodeErased d = e0 :: es ∧
      (d.decode K).m_out_blocks = d.m_out_blocks ++
        (((List.range b0.hdr.n_blocks).drop e0).filterMap fun i =>
          if emitOk d (slotAfterDecode K d i) then Option.some (slotAfterDecode K d i)
          else Option.none) := by
  have hne := erased_nonempty d b0 tl hb hcnt hfec
  obtain ⟨e0, es, he⟩ := List.exists_cons_of_ne_nil hne
  have hnz1 : b0.hdr.n_blocks ≠ 0 := by
    have : 0 < d.m_blocks.length := by rw [hb]; simp
    omega
  exact ⟨e0, es, he,
    (decode_run K d b0 tl e0 es hb (le_of_eq hcnt.symm) hnz1 hnz2 he).1⟩

/-- A consistent-header 2+1 group state for the C9 witness: one data shard
(block 0) and one parity shard (block 2), both with n_blocks = 2. -/
def c9wit : FECDecoder :=
  { m_block_size := 3
    m_prev_header := (FECBlock.ofWire (mkWire 1 2 2 1 1 [9]) 7).hdr
    m_blocks := [FECBlock.ofWire (mkWire 1 0 2 1 1 [5]) 7]
    m_fec_blocks := [FECBlock.ofWire (mkWire 1 2 2 1 1 [9]) 7]
    m_out_blocks := [FECBlock.ofWire (mkWire 1 0 2 1 1 [5]) 7]
    m_stats := ⟨2, 0, 1, 0, 0, 14⟩ }

set_option maxRecDepth 10000 in
/-- Witness for C9_decode_safety at the consistent 2+1 state c9wit. -/
theorem C9_witness :
    c9wit.m_blocks = FECBlock.ofWire (mkWire 1 0 2 1 1 [5]) 7 :: [] ∧
    c9wit.m_blocks.length + c9wit.m_fec_blocks.length
      = (FECBlock.ofWire (mkWire 1 0 2 1 1 [5]) 7).hdr.n_blocks ∧
    c9wit.m_fec_blocks ≠ [] ∧
    (∃ e0 es, decodeErased c9wit = e0 :: es ∧
      (c9wit.decode Kzero).m_out_blocks = c9wit.m_out_blocks ++
        (((List.range (FECBlock.ofWire (mkWire 1 0 2 1 1 [5]) 7).hdr.n_blocks).drop e0).filterMap fun i =>
          if emitOk c9wit (slotAfterDecode Kzero c9wit i)
          then Option.some (slotAfterDecode Kzero c9wit i)
          else Option.none)) :=
  ⟨by decide, by decide, by decide,
    C9_decode_safety Kzero c9wit (FECBlock.ofWire (mkWire 1 0 2 1 1 [5]) 7) []
      (by decide) (by decide) (by decide) (by decide)⟩



/-!  ### C7 — statistics monotonicity  -/

/-- Reflexivity of the field-wise statistics order. -/
theorem FECDecoderStats.le_refl (s : FECDecoderStats) : s.le s :=
  ⟨Nat.le_refl _, Nat.le_refl _, Nat.le_refl _, Nat.le_refl _, Nat.le_refl _, Nat.le_refl _⟩

/-- Transitivity of the field-wise statistics order. -/
theorem FECDecoderStats.le_trans (a b c : FECDecoderStats) (h1 : a.le b)
    (h2 : b.le c) : a.le c := by
  obtain ⟨x1, x2, x3, x4, x5, x6⟩ := h1
  obtain ⟨y1, y2, y3, y4, y5, y6⟩ := h2
  exact ⟨Nat.le_trans x1 y1, Nat.le_trans x2 y2, Nat.le_trans x3 y3,
    Nat.le_trans x4 y4, Nat.le_trans x5 y5, Nat.le_trans x6 y6⟩

/-- Bumping total_blocks preserves the field-wise order. -/
theorem FECDecoderStats.le_tb_bump (a b : FECDecoderStats) (h : a.le b) :
    a.le ⟨b.total_packets, b.total_blocks + 1, b.dropped_packets,
      b.dropped_blocks, b.lost_sync, b.bytes⟩ := by
  obtain ⟨x1, x2, x3, x4, x5, x6⟩ := h
  exact ⟨x1, Nat.le_trans x2 (Nat.le_succ _), x3, x4, x5, x6⟩

/-- decode() only ever adds to the statistics counters (lost_sync on the
sanity check, dropped_blocks in the emission loop). -/
theorem decode_mono (K : Kernel) (d : FECDecoder) :
    d.m_stats.le (d.decode K).m_stats := by
  unfold FECDecoder.decode
  dsimp only
  repeat' split
  all_goals first
    | exact FECDecoderStats.le_refl _
    | (refine ⟨?_, ?_, ?_, ?_, ?_, ?_⟩ <;> simp)

/-- The ingest tail of add_block only ever adds to the counters. -/
theorem ingest_mono (K : Kernel) (d : FECDecoder) (blk : FECBlock) :
    d.m_stats.le (d.ingest K blk).m_stats := by
  unfold FECDecoder.ingest
  dsimp only
  repeat' split
  all_goals try (first
    | exact FECDecoderStats.le_refl _
    | (refine ⟨?_, ?_, ?_, ?_, ?_, ?_⟩ <;> (simp; done)))
  all_goals
    refine FECDecoderStats.le_tb_bump _ _
      (FECDecoderStats.le_trans _ _ _ ?_ (decode_mono K _)) <;>
    (refine ⟨?_, ?_, ?_, ?_, ?_, ?_⟩ <;> simp)

/-- add_block only ever adds to the counters. -/
theorem add_block_mono (K : Kernel) (d : FECDecoder) (buf : List Byte)
    (len : Nat) : d.m_stats.le (d.add_block K buf len).m_stats := by
  unfold FECDecoder.add_block
  dsimp only
  repeat' split
  all_goals try (refine ⟨?_, ?_, ?_, ?_, ?_, ?_⟩ <;> (simp; done))
  all_goals
    refine FECDecoderStats.le_trans _ _ _ ?_ (ingest_mono K _ _) <;>
    (refine ⟨?_, ?_, ?_, ?_, ?_, ?_⟩ <;> simp)

/-- get_block() never touches the statistics. -/
theorem get_block_stats (d : FECDecoder) : d.get_block.2.m_stats = d.m_stats := by
  unfold FECDecoder.get_block
  split <;> rfl

/-- One decoder operation only ever adds to the counters. -/
theorem runOp_mono (K : Kernel) (d : FECDecoder) (op : DecOp) :
    d.m_stats.le (d.runOp K op).m_stats := by
  cases op with
  | add buf len => exact add_block_mono K d buf len
  | get =>
      unfold FECDecoder.runOp
      rw [get_block_stats]
      exact FECDecoderStats.le_refl _

/-- C7: every counter of the decoder statistics (total_packets,
total_blocks, dropped_packets, dropped_blocks, lost_sync, bytes) is
non-decreasing across every sequence of add_block and get_block calls on a
FECDecoder, for every input stream and every erasure kernel. -/
theorem C7_stats_monotone (K : Kernel) (d : FECDecoder) (ops : List DecOp) :
    d.m_stats.le (d.runOps K ops).m_stats := by
  induction ops generalizing d with
  | nil => exact FECDecoderStats.le_refl _
  | cons op rest ih =>
      exact FECDecoderStats.le_trans _ _ _ (runOp_mono K d op) (ih (d.runOp K op))


end FEC

namespace FEC

/-- Header fields representable in their C++ widths. -/
def FECBlock.wfh (b : FECBlock) : Prop :=
  b.hdr.seq_num < 256 ∧ b.hdr.block < 256 ∧ b.hdr.n_blocks < 256 ∧
  b.hdr.n_fec_blocks < 256 ∧ b.hdr.length < 65536

/-- Parsing a serialized shard of representable header fields recovers it:
the decoder sees exactly the block the encoder built. -/
theorem ofWire_toWire (b : FECBlock) (h : b.wfh) :
    FECBlock.ofWire b.toWire b.pktLength = b := by
  obtain ⟨⟨s, bl, nb, nf, l⟩, p⟩ := b
  obtain ⟨h1, h2, h3, h4, h5⟩ := h
  dsimp only at h1 h2 h3 h4 h5
  unfold FECBlock.ofWire FECBlock.toWire FECBlock.pktLength le16 mkHeader
  simp only [List.cons_append, List.nil_append]
  rw [List.take_of_length_le (by simp; omega)]
  congr 1
  simp only [FECHeader.mk.injEq]
  refine ⟨?_, ?_, ?_, ?_, ?_⟩ <;> (simp [List.getD]; omega)

/-- The slice of the input buffer covered by shard b (fec.cc lines 367-369):
`min(start + block_size, len) - start` bytes from offset `b * block_size`. -/
def sliceLen (len bs b : Nat) : Nat :=
  min ((b * bs % 2 ^ 32 + bs) % 2 ^ 32) (len % 2 ^ 32) - b * bs % 2 ^ 32

/-- Below 2^32 the loop's uint32_t slice arithmetic is exact. -/
theorem sliceLen_small (len bs b : Nat) (h1 : b * bs + bs < 2 ^ 32)
    (h2 : len < 2 ^ 32) :
    sliceLen len bs b = min (b * bs + bs) len - b * bs := by
  unfold sliceLen
  rw [Nat.mod_eq_of_lt (show b * bs < 2 ^ 32 by omega), Nat.mod_eq_of_lt h1,
    Nat.mod_eq_of_lt h2]

/-- The b-th data shard built by the encode_buffer loop when FEC is active:
sequence seq0, block index b, the group shape in the header, and the slice
bytes as payload (truncated to the uint16_t length on overflow). -/
def bufBlockOn (seq0 n nfec bs len : Nat) (buf : List Byte) (b : Nat) : FECBlock :=
  { hdr := mkHeader seq0 b n nfec (sliceLen len bs b)
    payload := ((buf.drop (b * bs % 2 ^ 32)).take (sliceLen len bs b)).take
      (sliceLen len bs b % 65536) }

/-- The b-th data shard built by the encode_buffer loop when FEC is off
(n_fec_blocks = 0, or n_blocks truncating to 0): block index 0 and a
sequence number advancing with every shard. -/
def bufBlockOff (seq0 n nfec bs len : Nat) (buf : List Byte) (b : Nat) : FECBlock :=
  { hdr := mkHeader (nextSeq^[b] (seq0 % 256)) 0 n nfec (sliceLen len bs b)
    payload := ((buf.drop (b * bs % 2 ^ 32)).take (sliceLen len bs b)).take
      (sliceLen len bs b % 65536) }

/-- The parity shards appended by encode_blocks for a full FEC-active group. -/
def bufParityOn (K : Kernel) (seq0 n nfec bs len : Nat) (buf : List Byte) :
    List FECBlock :=
  let datas := (List.range n).map (bufBlockOn seq0 n nfec bs len buf)
  let bsz := blockSizeOf datas
  (List.range (nfec % 256)).map fun i =>
    (mkBlock (seq0 % 256) (n % 256 + i) (n % 256) (nfec % 256) (bsz - 2)).withFec
      bsz ((K.enc bsz (datas.map FECBlock.fecData) (nfec % 256)).getD i [])

/-- Re-stamping the block index with its current value is the identity. -/
theorem restamp_block_eta (b : FECBlock) (x : Nat) (h : b.hdr.block = x) :
    (⟨⟨b.hdr.seq_num, x, b.hdr.n_blocks, b.hdr.n_fec_blocks, b.hdr.length⟩,
      b.payload⟩ : FECBlock) = b := by
  obtain ⟨⟨s, bl, nb, nf, l⟩, p⟩ := b
  simp only at h
  subst h
  rfl

/-- Re-stamping n_blocks with its current value is the identity. -/
theorem restamp_nblocks_eta (b : FECBlock) (x : Nat) (h : b.hdr.n_blocks = x) :
    (⟨⟨b.hdr.seq_num, b.hdr.block, x, b.hdr.n_fec_blocks, b.hdr.length⟩,
      b.payload⟩ : FECBlock) = b := by
  obtain ⟨⟨s, bl, nb, nf, l⟩, p⟩ := b
  simp only at h
  subst h
  rfl

/-- Invariant of the encode_buffer loop while FEC is active and the group is
not yet full: the first i slices sit in m_in_blocks and nothing was emitted. -/
theorem encFold_on_inv (K : Kernel) (bs n nfec seq0 : Nat) (buf : List Byte)
    (hn255 : n ≤ 255) (hn0 : n % 256 ≠ 0) (hf : nfec % 256 ≠ 0) :
    ∀ i, i < n →
      (List.range i).foldl (encStep K bs buf) (FECEncoder.init n nfec seq0) =
        { m_num_blocks := n % 256, m_num_fec_blocks := nfec % 256,
          m_seq_num := seq0 % 256,
          m_in_blocks := (List.range i).map (bufBlockOn seq0 n nfec bs buf.length buf),
          m_out_blocks := [] } := by
  intro i
  induction i with
  | zero =>
      intro _
      simp [FECEncoder.init]
  | succ i ih =>
      intro hi
      rw [List.range_succ, List.foldl_append, ih (by omega)]
      simp only [List.foldl_cons, List.foldl_nil]
      unfold encStep FECEncoder.add_block FECEncoder.get_next_block FECEncoder.fillBlock
      dsimp only
      simp only [mkBlock, mkHeader, List.length_map, List.length_range]
      rw [if_neg (by simp [hn0, hf])]
      rw [if_neg (by omega)]
      simp [bufBlockOn, sliceLen, mkHeader, List.range_succ]

end FEC

namespace FEC

/-- Output of the encode_buffer loop with FEC active: the group-filling
shard triggers encode_blocks, which emits all n data shards (n_blocks
stamped) followed by the parity shards. -/
theorem encFold_on_out (K : Kernel) (bs n nfec seq0 : Nat) (buf : List Byte)
    (hn1 : 1 ≤ n) (hn255 : n ≤ 255) (hf : nfec % 256 ≠ 0) :
    ((List.range n).foldl (encStep K bs buf) (FECEncoder.init n nfec seq0)).m_out_blocks =
      (List.range n).map (bufBlockOn seq0 n nfec bs buf.length buf) ++
        bufParityOn K seq0 n nfec bs buf.length buf := by
  have hn0 : n % 256 ≠ 0 := by omega
  obtain ⟨m, rfl⟩ : ∃ m, n = m + 1 := ⟨n - 1, by omega⟩
  rw [List.range_succ, List.foldl_append,
    encFold_on_inv K bs _ nfec seq0 buf hn255 hn0 hf m (by omega)]
  simp only [List.foldl_cons, List.foldl_nil]
  unfold encStep FECEncoder.add_block FECEncoder.get_next_block FECEncoder.fillBlock
  dsimp only
  simp only [mkBlock, mkHeader, List.length_map, List.length_range]
  rw [if_neg (by simp [hn0, hf])]
  rw [if_pos (by omega)]
  unfold FECEncoder.encode_blocks
  dsimp only
  simp only [List.length_append, List.length_map, List.length_range,
    List.length_singleton]
  rw [if_neg (by omega)]
  simp only [bufParityOn, List.map_map, List.map_append]
  simp [bufBlockOn, sliceLen, mkHeader, List.range_succ, Function.comp_def,
    Function.comp_apply]

end FEC

namespace FEC

/-- nextSeq always produces an 8-bit value. -/
theorem nextSeq_lt (s : Nat) : nextSeq s < 256 := by
  unfold nextSeq
  dsimp only
  split
  · omega
  · exact Nat.mod_lt _ (by omega)

/-- Iterating nextSeq keeps the value 8-bit. -/
theorem nextSeq_iterate_lt (i s : Nat) (h : s < 256) : nextSeq^[i] s < 256 := by
  induction i with
  | zero => simpa using h
  | succ i ih =>
      rw [Function.iterate_succ_apply']
      exact nextSeq_lt _

/-- State of the encode_buffer loop when FEC is disabled (n_fec_blocks = 0
or a truncated n_blocks = 0): every shard passes straight to the output and
the sequence number advances with each one. -/
theorem encFold_off_out (K : Kernel) (bs n nfec seq0 : Nat) (buf : List Byte)
    (hoff : nfec % 256 = 0 ∨ n % 256 = 0) :
    ∀ i, (List.range i).foldl (encStep K bs buf) (FECEncoder.init n nfec seq0) =
      { m_num_blocks := n % 256, m_num_fec_blocks := nfec % 256,
        m_seq_num := nextSeq^[i] (seq0 % 256), m_in_blocks := [],
        m_out_blocks := (List.range i).map (bufBlockOff seq0 n nfec bs buf.length buf) } := by
  intro i
  induction i with
  | zero => simp [FECEncoder.init]
  | succ i ih =>
      rw [List.range_succ, List.foldl_append, ih]
      simp only [List.foldl_cons, List.foldl_nil]
      unfold encStep FECEncoder.add_block FECEncoder.get_next_block FECEncoder.fillBlock
      dsimp only
      simp only [mkBlock, mkHeader, List.length_nil]
      rw [if_pos (by omega)]
      have hlt : nextSeq^[i] (seq0 % 256) < 256 :=
        nextSeq_iterate_lt i _ (Nat.mod_lt _ (by omega))
      simp [bufBlockOff, sliceLen, mkHeader, List.range_succ,
        Function.iterate_succ_apply', Nat.mod_eq_of_lt hlt]

end FEC

namespace FEC

/-- encode_buffer output with FEC active: the data shards followed by the
parity shards of one group shaped by bufferShape. -/
theorem encode_buffer_on_eq (K : Kernel) (nfec maxBS seq0 : Nat)
    (buf : List Byte) (hrej : ¬ bufferNblocks32 maxBS buf.length > 255)
    (hn1 : 1 ≤ (bufferShape maxBS buf.length).1)
    (hn255 : (bufferShape maxBS buf.length).1 ≤ 255) (hf : nfec % 256 ≠ 0) :
    (FECBufferEncoder.encode_buffer K nfec ⟨maxBS, seq0⟩ buf).1 =
      (List.range (bufferShape maxBS buf.length).1).map
        (bufBlockOn seq0 (bufferShape maxBS buf.length).1 nfec
          (bufferShape maxBS buf.length).2 buf.length buf) ++
      bufParityOn K seq0 (bufferShape maxBS buf.length).1 nfec
        (bufferShape maxBS buf.length).2 buf.length buf := by
  unfold FECBufferEncoder.encode_buffer
  dsimp only
  rw [if_neg hrej]
  exact encFold_on_out K _ _ nfec seq0 buf hn1 hn255 hf

/-- encode_buffer output with FEC disabled: the data shards pass through. -/
theorem encode_buffer_off_eq (K : Kernel) (nfec maxBS seq0 : Nat)
    (buf : List Byte) (hrej : ¬ bufferNblocks32 maxBS buf.length > 255)
    (hoff : nfec % 256 = 0 ∨ (bufferShape maxBS buf.length).1 % 256 = 0) :
    (FECBufferEncoder.encode_buffer K nfec ⟨maxBS, seq0⟩ buf).1 =
      (List.range (bufferShape maxBS buf.length).1).map
        (bufBlockOff seq0 (bufferShape maxBS buf.length).1 nfec
          (bufferShape maxBS buf.length).2 buf.length buf) := by
  unfold FECBufferEncoder.encode_buffer
  dsimp only
  rw [if_neg hrej]
  rw [encFold_off_out K _ _ nfec seq0 buf hoff]

end FEC

namespace FEC

/-- Serialization length equals pkt_length. -/
theorem toWire_length (b : FECBlock) : b.toWire.length = b.pktLength := by
  simp [FECBlock.toWire, FECBlock.pktLength, le16]
  omega

/-- Wire round-trip stated with the list length. -/
theorem ofWire_toWire' (b : FECBlock) (h : b.wfh) :
    FECBlock.ofWire b.toWire b.toWire.length = b := by
  rw [toWire_length]
  exact ofWire_toWire b h

/-- The unrolled sequence of a repeated value is itself. -/
theorem unrolledSeq_self (s : Nat) : unrolledSeq s s = s := by
  simp [unrolledSeq]

/-- Mid-group step of the fast path: data shard i of an FEC-active group
arriving in order is held and emitted immediately. -/
theorem dec_on_step_mid (K : Kernel) (f : Nat → FECBlock) (n seq0 nfb : Nat)
    (hs1 : 1 ≤ seq0) (hs2 : seq0 ≤ 255) (hn2 : n ≤ 255) (hnfb1 : nfb ≠ 0)
    (hnfb2 : nfb < 256)
    (hhdr : ∀ b, b < n → (f b).hdr.seq_num = seq0 ∧ (f b).hdr.block = b ∧
      (f b).hdr.n_blocks = n ∧ (f b).hdr.n_fec_blocks = nfb ∧
      (f b).hdr.length < 65536)
    (i : Nat) (h1 : 1 ≤ i) (hin : i + 1 < n) (d : FECDecoder)
    (hbs : d.m_block_size ≠ 0) (hprev : d.m_prev_header = (f (i - 1)).hdr)
    (hblocks : d.m_blocks = (List.range i).map f)
    (hfec : d.m_fec_blocks = [])
    (hout : d.m_out_blocks = (List.range i).map f) :
    (d.add_block K (f i).toWire (f i).toWire.length).m_block_size ≠ 0 ∧
    (d.add_block K (f i).toWire (f i).toWire.length).m_prev_header = (f i).hdr ∧
    (d.add_block K (f i).toWire (f i).toWire.length).m_blocks =
      (List.range (i + 1)).map f ∧
    (d.add_block K (f i).toWire (f i).toWire.length).m_fec_blocks = [] ∧
    (d.add_block K (f i).toWire (f i).toWire.length).m_out_blocks =
      (List.range (i + 1)).map f := by
  obtain ⟨e1, e2, e3, e4, e5⟩ := hhdr i (by omega)
  obtain ⟨p1, p2, p3, p4, p5⟩ := hhdr (i - 1) (by omega)
  have hwf : (f i).wfh := ⟨by omega, by omega, by omega, by omega, e5⟩
  unfold FECDecoder.add_block
  dsimp only
  rw [ofWire_toWire' (f i) hwf]
  rw [if_pos hbs]
  rw [hprev, p1, e1, unrolledSeq_self]
  rw [if_neg (by omega)]
  rw [if_neg (by rw [e2, p2]; omega)]
  unfold FECDecoder.ingest
  dsimp only
  have hpass : ¬ ((f i).hdr.n_blocks = 0 ∨ (f i).hdr.n_fec_blocks = 0) := by
    rw [e3, e4]
    intro hc
    rcases hc with hc | hc <;> omega
  rw [if_neg hpass]
  have hbs2 : ¬ d.m_block_size = 0 := hbs
  rw [if_neg hbs2]
  try dsimp only
  have hdata : (f i).isData = true := by
    simp only [FECBlock.isData, e2, e3, decide_eq_true_eq]
    omega
  rw [if_pos hdata]
  try dsimp only
  have hfast : (d.m_blocks ++ [f i]).length - 1 = (f i).hdr.block := by
    rw [hblocks, e2]
    simp
  rw [if_pos hfast]
  try dsimp only
  have hclose : ¬ (d.m_blocks ++ [f i]).length = (f i).hdr.n_blocks := by
    rw [hblocks, e3]
    simp only [List.length_append, List.length_map, List.length_range,
      List.length_singleton]
    omega
  rw [if_neg hclose]
  try dsimp only
  refine ⟨?_, rfl, ?_, by simpa using hfec, ?_⟩
  · simp only [ne_eq, Nat.max_eq_zero_iff, FECBlock.blockSize]
    intro hc
    omega
  · rw [hblocks]
    simp [List.range_succ]
  · rw [hout]
    simp [List.range_succ]

end FEC

namespace FEC

/-- Group-closing step of the fast path: the last data shard closes the
group by count and resets the group state. -/
theorem dec_on_step_close (K : Kernel) (f : Nat → FECBlock) (n seq0 nfb : Nat)
    (hs1 : 1 ≤ seq0) (hs2 : seq0 ≤ 255) (hn2 : n ≤ 255) (hnfb1 : nfb ≠ 0)
    (hnfb2 : nfb < 256)
    (hhdr : ∀ b, b < n → (f b).hdr.seq_num = seq0 ∧ (f b).hdr.block = b ∧
      (f b).hdr.n_blocks = n ∧ (f b).hdr.n_fec_blocks = nfb ∧
      (f b).hdr.length < 65536)
    (i : Nat) (h1 : 1 ≤ i) (hin : i + 1 = n) (d : FECDecoder)
    (hbs : d.m_block_size ≠ 0) (hprev : d.m_prev_header = (f (i - 1)).hdr)
    (hblocks : d.m_blocks = (List.range i).map f)
    (hfec : d.m_fec_blocks = [])
    (hout : d.m_out_blocks = (List.range i).map f) :
    (d.add_block K (f i).toWire (f i).toWire.length).m_block_size = 0 ∧
    (d.add_block K (f i).toWire (f i).toWire.length).m_prev_header = (f i).hdr ∧
    (d.add_block K (f i).toWire (f i).toWire.length).m_blocks = [] ∧
    (d.add_block K (f i).toWire (f i).toWire.length).m_fec_blocks = [] ∧
    (d.add_block K (f i).toWire (f i).toWire.length).m_out_blocks =
      (List.range (i + 1)).map f := by
  obtain ⟨e1, e2, e3, e4, e5⟩ := hhdr i (by omega)
  obtain ⟨p1, p2, p3, p4, p5⟩ := hhdr (i - 1) (by omega)
  have hwf : (f i).wfh := ⟨by omega, by omega, by omega, by omega, e5⟩
  unfold FECDecoder.add_block
  dsimp only
  rw [ofWire_toWire' (f i) hwf]
  rw [if_pos hbs]
  rw [hprev, p1, e1, unrolledSeq_self]
  rw [if_neg (by omega)]
  rw [if_neg (by rw [e2, p2]; omega)]
  unfold FECDecoder.ingest
  dsimp only
  have hpass : ¬ ((f i).hdr.n_blocks = 0 ∨ (f i).hdr.n_fec_blocks = 0) := by
    rw [e3, e4]
    intro hc
    rcases hc with hc | hc <;> omega
  rw [if_neg hpass]
  have hbs2 : ¬ d.m_block_size = 0 := hbs
  rw [if_neg hbs2]
  try dsimp only
  have hdata : (f i).isData = true := by
    simp only [FECBlock.isData, e2, e3, decide_eq_true_eq]
    omega
  rw [if_pos hdata]
  try dsimp only
  have hfast : (d.m_blocks ++ [f i]).length - 1 = (f i).hdr.block := by
    rw [hblocks, e2]
    simp
  rw [if_pos hfast]
  try dsimp only
  have hclose : (d.m_blocks ++ [f i]).length = (f i).hdr.n_blocks := by
    rw [hblocks, e3]
    simp only [List.length_append, List.length_map, List.length_range,
      List.length_singleton]
    omega
  rw [if_pos hclose]
  try dsimp only
  refine ⟨rfl, rfl, rfl, rfl, ?_⟩
  rw [hout]
  simp [List.range_succ]

/-- The default-constructed previous header is all zeroes. -/
theorem default_hdr_eq : (default : FECHeader) = ⟨0, 0, 0, 0, 0⟩ := rfl

/-- First shard of an FEC-active group (block 0) opens the group and is
emitted on the fast path; with n ≥ 2 the group stays open. -/
theorem dec_on_first_mid (K : Kernel) (f : Nat → FECBlock) (n seq0 nfb : Nat)
    (hs1 : 1 ≤ seq0) (hs2 : seq0 ≤ 255) (hn1 : 2 ≤ n) (hn2 : n ≤ 255)
    (hnfb1 : nfb ≠ 0) (hnfb2 : nfb < 256)
    (hhdr : ∀ b, b < n → (f b).hdr.seq_num = seq0 ∧ (f b).hdr.block = b ∧
      (f b).hdr.n_blocks = n ∧ (f b).hdr.n_fec_blocks = nfb ∧
      (f b).hdr.length < 65536) :
    (FECDecoder.init.add_block K (f 0).toWire (f 0).toWire.length).m_block_size ≠ 0 ∧
    (FECDecoder.init.add_block K (f 0).toWire (f 0).toWire.length).m_prev_header = (f 0).hdr ∧
    (FECDecoder.init.add_block K (f 0).toWire (f 0).toWire.length).m_blocks =
      (List.range 1).map f ∧
    (FECDecoder.init.add_block K (f 0).toWire (f 0).toWire.length).m_fec_blocks = [] ∧
    (FECDecoder.init.add_block K (f 0).toWire (f 0).toWire.length).m_out_blocks =
      (List.range 1).map f := by
  obtain ⟨e1, e2, e3, e4, e5⟩ := hhdr 0 (by omega)
  have hwf : (f 0).wfh := ⟨by omega, by omega, by omega, by omega, e5⟩
  unfold FECDecoder.add_block FECDecoder.init
  dsimp only
  rw [ofWire_toWire' (f 0) hwf]
  rw [if_neg (by simp)]
  rw [if_neg (by rw [e1]; unfold unrolledSeq; simp only [default_hdr_eq]; rw [if_neg (by omega)]; omega)]
  unfold FECDecoder.ingest
  dsimp only
  have hpass : ¬ ((f 0).hdr.n_blocks = 0 ∨ (f 0).hdr.n_fec_blocks = 0) := by
    rw [e3, e4]
    intro hc
    rcases hc with hc | hc <;> omega
  rw [if_neg hpass]
  rw [if_pos rfl]
  try dsimp only
  have hdata : (f 0).isData = true := by
    simp only [FECBlock.isData, e2, e3, decide_eq_true_eq]
    omega
  rw [if_pos hdata]
  try dsimp only
  have hfast : (([] : List FECBlock) ++ [f 0]).length - 1 = (f 0).hdr.block := by
    rw [e2]
    simp
  rw [if_pos hfast]
  try dsimp only
  have hclose : ¬ (([] : List FECBlock) ++ [f 0]).length = (f 0).hdr.n_blocks := by
    rw [e3]
    simp only [List.nil_append, List.length_singleton]
    omega
  rw [if_neg hclose]
  try dsimp only
  refine ⟨?_, rfl, by simp [List.range_succ], rfl, by simp [List.range_succ]⟩
  simp [FECBlock.blockSize]

/-- A single-shard group (n = 1): the first shard is emitted and the group
closes immediately. -/
theorem dec_on_first_close (K : Kernel) (f : Nat → FECBlock) (seq0 nfb : Nat)
    (hs1 : 1 ≤ seq0) (hs2 : seq0 ≤ 255) (hnfb1 : nfb ≠ 0) (hnfb2 : nfb < 256)
    (hhdr : ∀ b, b < 1 → (f b).hdr.seq_num = seq0 ∧ (f b).hdr.block = b ∧
      (f b).hdr.n_blocks = 1 ∧ (f b).hdr.n_fec_blocks = nfb ∧
      (f b).hdr.length < 65536) :
    (FECDecoder.init.add_block K (f 0).toWire (f 0).toWire.length).m_block_size = 0 ∧
    (FECDecoder.init.add_block K (f 0).toWire (f 0).toWire.length).m_prev_header = (f 0).hdr ∧
    (FECDecoder.init.add_block K (f 0).toWire (f 0).toWire.length).m_blocks = [] ∧
    (FECDecoder.init.add_block K (f 0).toWire (f 0).toWire.length).m_fec_blocks = [] ∧
    (FECDecoder.init.add_block K (f 0).toWire (f 0).toWire.length).m_out_blocks =
      (List.range 1).map f := by
  obtain ⟨e1, e2, e3, e4, e5⟩ := hhdr 0 (by omega)
  have hwf : (f 0).wfh := ⟨by omega, by omega, by omega, by omega, e5⟩
  unfold FECDecoder.add_block FECDecoder.init
  dsimp only
  rw [ofWire_toWire' (f 0) hwf]
  rw [if_neg (by simp)]
  rw [if_neg (by rw [e1]; unfold unrolledSeq; simp only [default_hdr_eq]; rw [if_neg (by omega)]; omega)]
  unfold FECDecoder.ingest
  dsimp only
  have hpass : ¬ ((f 0).hdr.n_blocks = 0 ∨ (f 0).hdr.n_fec_blocks = 0) := by
    rw [e3, e4]
    intro hc
    rcases hc with hc | hc <;> omega
  rw [if_neg hpass]
  rw [if_pos rfl]
  try dsimp only
  have hdata : (f 0).isData = true := by
    simp only [FECBlock.isData, e2, e3, decide_eq_true_eq]
    omega
  rw [if_pos hdata]
  try dsimp only
  have hfast : (([] : List FECBlock) ++ [f 0]).length - 1 = (f 0).hdr.block := by
    rw [e2]
    simp
  rw [if_pos hfast]
  try dsimp only
  have hclose : (([] : List FECBlock) ++ [f 0]).length = (f 0).hdr.n_blocks := by
    rw [e3]
    simp
  rw [if_pos hclose]
  try dsimp only
  exact ⟨rfl, rfl, rfl, rfl, by simp [List.range_succ]⟩

end FEC

namespace FEC

/-- Feeding one more packet after a batch. -/
theorem addAll_snoc (K : Kernel) (d : FECDecoder) (pkts : List (List Byte))
    (p : List Byte) :
    d.addAll K (pkts ++ [p]) = (d.addAll K pkts).add_block K p p.length := by
  simp [FECDecoder.addAll, List.foldl_append]

/-- Full fast-path run: a fresh decoder fed the n data shards of one
FEC-active group, in block order, emits exactly those shards, closes the
group, and remembers the last header. -/
theorem dec_on_run (K : Kernel) (f : Nat → FECBlock) (n seq0 nfb : Nat)
    (hs1 : 1 ≤ seq0) (hs2 : seq0 ≤ 255) (hn1 : 1 ≤ n) (hn2 : n ≤ 255)
    (hnfb1 : nfb ≠ 0) (hnfb2 : nfb < 256)
    (hhdr : ∀ b, b < n → (f b).hdr.seq_num = seq0 ∧ (f b).hdr.block = b ∧
      (f b).hdr.n_blocks = n ∧ (f b).hdr.n_fec_blocks = nfb ∧
      (f b).hdr.length < 65536) :
    (FECDecoder.init.addAll K ((List.range n).map fun b => (f b).toWire)).m_block_size = 0 ∧
    (FECDecoder.init.addAll K ((List.range n).map fun b => (f b).toWire)).m_prev_header = (f (n - 1)).hdr ∧
    (FECDecoder.init.addAll K ((List.range n).map fun b => (f b).toWire)).m_blocks = [] ∧
    (FECDecoder.init.addAll K ((List.range n).map fun b => (f b).toWire)).m_fec_blocks = [] ∧
    (FECDecoder.init.addAll K ((List.range n).map fun b => (f b).toWire)).m_out_blocks =
      (List.range n).map f := by
  rcases Nat.lt_or_ge n 2 with hn | hn
  · have hne : n = 1 := by omega
    subst hne
    have h1 : (List.range 1).map (fun b => (f b).toWire) = [(f 0).toWire] := by
      simp [List.range_succ]
    rw [h1]
    have h2 : FECDecoder.init.addAll K [(f 0).toWire] =
        FECDecoder.init.add_block K (f 0).toWire (f 0).toWire.length := by
      simp [FECDecoder.addAll]
    rw [h2]
    exact dec_on_first_close K f seq0 nfb hs1 hs2 hnfb1 hnfb2 hhdr
  · have key : ∀ i, 1 ≤ i → i < n →
        (FECDecoder.init.addAll K ((List.range i).map fun b => (f b).toWire)).m_block_size ≠ 0 ∧
        (FECDecoder.init.addAll K ((List.range i).map fun b => (f b).toWire)).m_prev_header = (f (i - 1)).hdr ∧
        (FECDecoder.init.addAll K ((List.range i).map fun b => (f b).toWire)).m_blocks = (List.range i).map f ∧
        (FECDecoder.init.addAll K ((List.range i).map fun b => (f b).toWire)).m_fec_blocks = [] ∧
        (FECDecoder.init.addAll K ((List.range i).map fun b => (f b).toWire)).m_out_blocks = (List.range i).map f := by
      intro i
      induction i with
      | zero => omega
      | succ i ih =>
          intro _ hilt
          rcases Nat.eq_zero_or_pos i with hz | hpos
          · subst hz
            have h1 : (List.range 1).map (fun b => (f b).toWire) = [(f 0).toWire] := by
              simp [List.range_succ]
            rw [h1]
            have h2 : FECDecoder.init.addAll K [(f 0).toWire] =
                FECDecoder.init.add_block K (f 0).toWire (f 0).toWire.length := by
              simp [FECDecoder.addAll]
            rw [h2]
            have := dec_on_first_mid K f n seq0 nfb hs1 hs2 (by omega) hn2 hnfb1 hnfb2 hhdr
            simpa using this
          · obtain ⟨hq1, hq2, hq3, hq4, hq5⟩ := ih hpos (by omega)
            have hr : (List.range (i + 1)).map (fun b => (f b).toWire) =
                ((List.range i).map fun b => (f b).toWire) ++ [(f i).toWire] := by
              simp [List.range_succ]
            rw [hr, addAll_snoc]
            exact dec_on_step_mid K f n seq0 nfb hs1 hs2 hn2 hnfb1 hnfb2 hhdr i
              hpos hilt _ hq1 hq2 hq3 hq4 hq5
    obtain ⟨hq1, hq2, hq3, hq4, hq5⟩ := key (n - 1) (by omega) (by omega)
    have hr : (List.range n).map (fun b => (f b).toWire) =
        ((List.range (n - 1)).map fun b => (f b).toWire) ++ [(f (n - 1)).toWire] := by
      have : n = (n - 1) + 1 := by omega
      rw [this]
      simp [List.range_succ]
    rw [hr, addAll_snoc]
    have := dec_on_step_close K f n seq0 nfb hs1 hs2 hn2 hnfb1 hnfb2 hhdr (n - 1)
      (by omega) (by omega) _ hq1 hq2 hq3 hq4 hq5
    have hend : (n - 1) + 1 = n := by omega
    rw [hend] at this
    exact this

end FEC

namespace FEC

/-- Shards repeating the sequence number of a just-closed group are skipped
silently (fec.cc lines 168-173): the decoder state other than the previous
header and statistics is untouched. -/
theorem dec_skip_run (K : Kernel) (ps : List FECBlock) (seq0 : Nat)
    (hps : ∀ p ∈ ps, p.hdr.seq_num = seq0 ∧ p.wfh) :
    ∀ d : FECDecoder, d.m_block_size = 0 → d.m_prev_header.seq_num = seq0 →
      (d.addAll K (ps.map FECBlock.toWire)).m_out_blocks = d.m_out_blocks ∧
      (d.addAll K (ps.map FECBlock.toWire)).m_block_size = 0 ∧
      (d.addAll K (ps.map FECBlock.toWire)).m_blocks = d.m_blocks ∧
      (d.addAll K (ps.map FECBlock.toWire)).m_fec_blocks = d.m_fec_blocks ∧
      (d.addAll K (ps.map FECBlock.toWire)).m_prev_header.seq_num = seq0 := by
  induction ps with
  | nil =>
      intro d h1 h2
      exact ⟨rfl, h1, rfl, rfl, h2⟩
  | cons p ps ih =>
      intro d hbs hseq
      obtain ⟨hp1, hp2⟩ := hps p (by simp)
      have hstep : d.add_block K p.toWire p.toWire.length =
          { d with
            m_prev_header := p.hdr
            m_stats := { d.m_stats with
              total_packets := d.m_stats.total_packets + 1
              bytes := d.m_stats.bytes + p.toWire.length } } := by
        unfold FECDecoder.add_block
        dsimp only
        rw [ofWire_toWire' p hp2]
        rw [if_neg (by simp [hbs])]
        rw [hseq, hp1, unrolledSeq_self]
        rw [if_pos rfl]
      have hmap : (p :: ps).map FECBlock.toWire =
          p.toWire :: ps.map FECBlock.toWire := rfl
      rw [hmap]
      have haddall : d.addAll K (p.toWire :: ps.map FECBlock.toWire) =
          (d.add_block K p.toWire p.toWire.length).addAll K
            (ps.map FECBlock.toWire) := by
        simp [FECDecoder.addAll]
      rw [haddall, hstep]
      exact ih (fun q hq => hps q (by simp [hq])) _ (by simpa using hbs) (by simpa using hp1)

/-- nextSeq stays in the legal 1..255 range. -/
theorem nextSeq_mem (s : Nat) (h1 : 1 ≤ s) (h2 : s ≤ 255) :
    1 ≤ nextSeq s ∧ nextSeq s ≤ 255 := by
  unfold nextSeq
  dsimp only
  split <;> omega

/-- Iterated nextSeq stays in the legal 1..255 range. -/
theorem nextSeq_iterate_mem (i s : Nat) (h1 : 1 ≤ s) (h2 : s ≤ 255) :
    1 ≤ nextSeq^[i] s ∧ nextSeq^[i] s ≤ 255 := by
  induction i with
  | zero => exact ⟨h1, h2⟩
  | succ i ih =>
      rw [Function.iterate_succ_apply']
      exact nextSeq_mem _ ih.1 ih.2

/-- Advancing the sequence never looks like the same group. -/
theorem unrolledSeq_nextSeq_ne (s : Nat) (h1 : 1 ≤ s) (h2 : s ≤ 255) :
    s ≠ unrolledSeq s (nextSeq s) := by
  unfold unrolledSeq nextSeq
  dsimp only
  split <;> split <;> omega

/-- Passthrough run: a fresh decoder fed shards with FEC disabled (header
n_blocks = 0 or n_fec_blocks = 0) and consecutively advancing sequence
numbers emits every shard in arrival order and never opens a group. -/
theorem dec_off_run (K : Kernel) (f : Nat → FECBlock) (s0 : Nat)
    (hs1 : 1 ≤ s0) (hs2 : s0 ≤ 255)
    (hhdr : ∀ b, (f b).hdr.seq_num = nextSeq^[b] s0 ∧
      ((f b).hdr.n_blocks = 0 ∨ (f b).hdr.n_fec_blocks = 0) ∧ (f b).wfh) :
    ∀ i,
      (FECDecoder.init.addAll K ((List.range i).map fun b => (f b).toWire)).m_block_size = 0 ∧
      (FECDecoder.init.addAll K ((List.range i).map fun b => (f b).toWire)).m_blocks = [] ∧
      (FECDecoder.init.addAll K ((List.range i).map fun b => (f b).toWire)).m_fec_blocks = [] ∧
      (FECDecoder.init.addAll K ((List.range i).map fun b => (f b).toWire)).m_out_blocks = (List.range i).map f ∧
      (FECDecoder.init.addAll K ((List.range i).map fun b => (f b).toWire)).m_prev_header.seq_num =
        (if i = 0 then 0 else nextSeq^[i - 1] s0) := by
  intro i
  induction i with
  | zero =>
      refine ⟨rfl, rfl, rfl, rfl, ?_⟩
      simp [FECDecoder.addAll, FECDecoder.init, default_hdr_eq]
  | succ i ih =>
      obtain ⟨hq1, hq2, hq3, hq4, hq5⟩ := ih
      obtain ⟨e1, e2, e3⟩ := hhdr i
      have hr : (List.range (i + 1)).map (fun b => (f b).toWire) =
          ((List.range i).map fun b => (f b).toWire) ++ [(f i).toWire] := by
        simp [List.range_succ]
      rw [hr, addAll_snoc]
      have hne : (FECDecoder.init.addAll K ((List.range i).map fun b => (f b).toWire)).m_prev_header.seq_num
          ≠ unrolledSeq
            (FECDecoder.init.addAll K ((List.range i).map fun b => (f b).toWire)).m_prev_header.seq_num
            (f i).hdr.seq_num := by
        rw [hq5, e1]
        rcases Nat.eq_zero_or_pos i with hz | hpos
        · subst hz
          simp only [Function.iterate_zero_apply, eq_self_iff_true, if_true]
          unfold unrolledSeq
          rw [if_neg (by omega)]
          omega
        · rw [if_neg (by omega)]
          have hmem := nextSeq_iterate_mem (i - 1) s0 hs1 hs2
          have hstep : nextSeq^[i] s0 = nextSeq (nextSeq^[i - 1] s0) := by
            conv_lhs => rw [show i = (i - 1) + 1 by omega]
            rw [Function.iterate_succ_apply']
          rw [hstep]
          exact unrolledSeq_nextSeq_ne _ hmem.1 hmem.2
      unfold FECDecoder.add_block
      dsimp only
      rw [ofWire_toWire' (f i) e3]
      rw [if_neg (by simp [hq1])]
      rw [if_neg hne]
      unfold FECDecoder.ingest
      dsimp only
      rw [if_pos (by rcases e2 with h | h <;> simp [h])]
      rw [if_pos hq1]
      refine ⟨by simpa using hq1, by simpa using hq2, by simpa using hq3, ?_, ?_⟩
      · rw [hq4]
        simp [List.range_succ]
      · simp [e1]

end FEC

namespace FEC

/-- Concatenating the bs-sized slices of a buffer reassembles its prefix. -/
theorem join_slices (bs : Nat) : ∀ (n : Nat) (l : List Byte),
    ((List.range n).map fun b => (l.drop (b * bs)).take bs).flatten =
      l.take (n * bs) := by
  intro n
  induction n with
  | zero => intro l; simp
  | succ n ih =>
      intro l
      rw [List.range_succ_eq_map]
      simp only [List.map_cons, List.flatten_cons, List.map_map]
      have hcomp : ((fun b => (l.drop (b * bs)).take bs) ∘ Nat.succ) =
          fun b => ((l.drop bs).drop (b * bs)).take bs := by
        funext b
        simp only [Function.comp_apply, List.drop_drop]
        congr 2
        rw [Nat.succ_mul, Nat.mul_comm]
        omega
      rw [hcomp, ih (l.drop bs)]
      have hm : (n + 1) * bs = bs + n * bs := by ring
      rw [hm, List.take_add]
      simp

/-- The byte stream a consumer reassembles from the decoder output:
each emitted shard contributes its payload truncated to the length field
(fec.cc lines 414-417 in FECBufferEncoder::test). -/
def emittedPayloads (d : FECDecoder) : List Byte :=
  (d.m_out_blocks.map fun b => b.payload.take b.dataLength).flatten

/-- Whole-pipeline round trip: encode a buffer, feed every produced shard
(serialized) to a fresh decoder in order, and reassemble the output. -/
def roundTrip (K : Kernel) (nfec : Nat) (st : FECBufferEncoder)
    (buf : List Byte) : List Byte :=
  emittedPayloads (FECDecoder.init.addAll K
    (((st.encode_buffer K nfec buf).1).map FECBlock.toWire))

/-- Feeding two batches in sequence. -/
theorem addAll_append (K : Kernel) (d : FECDecoder)
    (xs ys : List (List Byte)) :
    d.addAll K (xs ++ ys) = (d.addAll K xs).addAll K ys := by
  simp [FECDecoder.addAll, List.foldl_append]

/-- Every parity shard of a group carries the group's sequence number and
representable header fields. -/
theorem bufParityOn_mem (K : Kernel) (seq0 n nfec bs len : Nat)
    (buf : List Byte) (p : FECBlock) (hp : p ∈ bufParityOn K seq0 n nfec bs len buf) :
    p.hdr.seq_num = seq0 % 256 ∧ p.wfh := by
  unfold bufParityOn at hp
  simp only [List.mem_map, List.mem_range] at hp
  obtain ⟨i, hi, rfl⟩ := hp
  unfold FECBlock.withFec mkBlock mkHeader FECBlock.wfh
  dsimp only
  refine ⟨by omega, Nat.mod_lt _ (by omega), Nat.mod_lt _ (by omega),
    Nat.mod_lt _ (by omega), Nat.mod_lt _ (by omega), Nat.mod_lt _ (by omega)⟩

end FEC

namespace FEC

/-- Reassembling the emitted data shards of one group recovers the buffer:
each shard contributes its slice, truncated takes collapse because every
slice fits the 16-bit length field, and the slices cover the buffer. -/
theorem emitted_concat (n bs : Nat) (buf : List Byte) (g : Nat → FECBlock)
    (hbs65 : bs ≤ 65535) (hcov : buf.length ≤ n * bs)
    (hW : n * bs < 2 ^ 32) (hlen : buf.length < 2 ^ 32)
    (hg : ∀ b, b < n →
      (g b).payload = ((buf.drop (b * bs % 2 ^ 32)).take (sliceLen buf.length bs b)).take
        (sliceLen buf.length bs b % 65536) ∧
      (g b).hdr.length = sliceLen buf.length bs b % 65536) :
    ((List.range n).map fun b => (g b).payload.take (g b).dataLength).flatten
      = buf := by
  have hmap : (List.range n).map (fun b => (g b).payload.take (g b).dataLength) =
      (List.range n).map fun b => (buf.drop (b * bs)).take bs := by
    apply List.map_congr_left
    intro b hb
    rw [List.mem_range] at hb
    obtain ⟨hp, hl⟩ := hg b hb
    have hbb : b * bs + bs < 2 ^ 32 := by
      have h := Nat.mul_le_mul_right bs (show b + 1 ≤ n by omega)
      rw [Nat.succ_mul] at h
      omega
    have hsm : sliceLen buf.length bs b = min (b * bs + bs) buf.length - b * bs :=
      sliceLen_small _ _ _ hbb hlen
    have hdm : b * bs % 2 ^ 32 = b * bs := Nat.mod_eq_of_lt (by omega)
    rw [hsm, hdm] at hp
    rw [hsm] at hl
    have hsl : min (b * bs + bs) buf.length - b * bs ≤ bs := by omega
    have hslm : (min (b * bs + bs) buf.length - b * bs) % 65536 =
        min (b * bs + bs) buf.length - b * bs := Nat.mod_eq_of_lt (by omega)
    rw [FECBlock.dataLength, hp, hl, hslm]
    rw [List.take_take, List.take_take]
    simp only [inf_idem]
    rcases Nat.le_total (b * bs + bs) buf.length with hc | hc
    · have hbsl : min (b * bs + bs) buf.length - b * bs = bs := by omega
      rw [hbsl]
    · have hx : (buf.drop (b * bs)).length = buf.length - b * bs :=
        List.length_drop _ _
      have h1 : (buf.drop (b * bs)).take (min (b * bs + bs) buf.length - b * bs) =
          buf.drop (b * bs) := by
        apply List.take_of_length_le
        rw [hx]
        omega
      have h2 : (buf.drop (b * bs)).take bs = buf.drop (b * bs) := by
        apply List.take_of_length_le
        rw [hx]
        omega
      rw [h1, h2]
  rw [hmap, join_slices]
  exact List.take_of_length_le hcov

end FEC

namespace FEC

set_option maxRecDepth 10000 in
/-- Counterexample for C6: a buffer of 2^32 bytes at max_shard_size 1
needs 2^32 > 255 shards, yet the uint32_t truncation at fec.cc line 340
stores nblocks = 0, so the rejection at line 343 is skipped: the call
emits a shard and advances m_seq_num instead of returning the empty
sequence with the state unchanged. -/
theorem C6_counterexample :
    (List.replicate (2 ^ 32) (0 : Byte)).length /
      (FECBufferEncoder.mk 1 5).m_max_block_size > 255 ∧
    (FECBufferEncoder.encode_buffer Kzero 0 ⟨1, 5⟩
      (List.replicate (2 ^ 32) (0 : Byte))).1 ≠ [] ∧
    (FECBufferEncoder.encode_buffer Kzero 0 ⟨1, 5⟩
      (List.replicate (2 ^ 32) (0 : Byte))).2 ≠ ⟨1, 5⟩ := by
  have hlen : (List.replicate (2 ^ 32) (0 : Byte)).length = 2 ^ 32 :=
    List.length_replicate _ _
  have hrej : ¬ bufferNblocks32 (FECBufferEncoder.mk 1 5).m_max_block_size
      (2 ^ 32) > 255 := by
    norm_num [bufferNblocks32]
  have hshape : bufferShape (FECBufferEncoder.mk 1 5).m_max_block_size
      (2 ^ 32) = (1, 0) := by
    decide
  have key : FECBufferEncoder.encode_buffer Kzero 0 ⟨1, 5⟩
      (List.replicate (2 ^ 32) (0 : Byte)) =
      (((List.range 1).foldl (encStep Kzero 0 (List.replicate (2 ^ 32) (0 : Byte)))
        (FECEncoder.init 1 0 5)).m_out_blocks,
       ⟨1, nextSeq 5⟩) := by
    unfold FECBufferEncoder.encode_buffer
    dsimp only
    rw [hlen]
    rw [if_neg hrej, hshape]
  refine ⟨by rw [hlen]; decide, ?_, ?_⟩
  · rw [key]
    rw [encFold_off_out Kzero 0 1 0 5 (List.replicate (2 ^ 32) (0 : Byte))
      (Or.inl rfl) 1]
    dsimp only
    intro hcontra
    have hlen0 : ((List.range 1).map (bufBlockOff 5 1 0 0
        (List.replicate (2 ^ 32) (0 : Byte)).length
        (List.replicate (2 ^ 32) (0 : Byte)))).length = 0 := by
      rw [hcontra]
      rfl
    rw [List.length_map, List.length_range] at hlen0
    exact absurd hlen0 (by decide)
  · rw [key]
    decide

end FEC

namespace FEC

/-- Shape facts for encode_buffer groups on the exactly-representable
domain (buffer at most 255 shards of at most 32768 bytes): at least one
and at most 255 shards, the shards cover the buffer, and the shard size
fits the 16-bit length field.  All uint32_t truncations inside
bufferShape are the identity here. -/
theorem bufferShape_spec (maxBS len : Nat) (h1 : 1 ≤ maxBS) (h2 : 1 ≤ len)
    (h3 : len ≤ 255 * maxBS) (h4 : maxBS ≤ 32768) :
    1 ≤ (bufferShape maxBS len).1 ∧ (bufferShape maxBS len).1 ≤ 255 ∧
    len ≤ (bufferShape maxBS len).1 * (bufferShape maxBS len).2 ∧
    (bufferShape maxBS len).2 ≤ 65535 := by
  have hlen32 : len < 2 ^ 32 := by omega
  unfold bufferShape bufferNblocks32
  dsimp only
  rw [Nat.mod_eq_of_lt (show maxBS < 2 ^ 32 by omega),
    Nat.mod_eq_of_lt (lt_of_le_of_lt (Nat.div_le_self len maxBS) hlen32),
    Nat.mod_eq_of_lt hlen32]
  have hdm := Nat.div_add_mod len maxBS
  by_cases hz : len / maxBS = 0
  · rw [if_pos hz]
    rw [hz, Nat.mul_zero] at hdm
    have hmlt : len % maxBS < maxBS := Nat.mod_lt _ (by omega)
    dsimp only
    exact ⟨by omega, by omega, by omega, by omega⟩
  · rw [if_neg hz]
    obtain ⟨n0, hn0⟩ : ∃ x, len / maxBS = x := ⟨_, rfl⟩
    obtain ⟨r0, hr0⟩ : ∃ x, len % maxBS = x := ⟨_, rfl⟩
    rw [hn0, hr0] at hdm
    have hr0lt : r0 < maxBS := hr0 ▸ Nat.mod_lt _ (by omega)
    have hn0pos : 1 ≤ n0 := by
      rw [hn0] at hz
      omega
    have hcomm : maxBS * n0 = n0 * maxBS := Nat.mul_comm _ _
    have hn0le : n0 ≤ 255 := by
      by_contra hh
      push_neg at hh
      have h256 : maxBS * 256 ≤ maxBS * n0 := Nat.mul_le_mul_left _ (by omega)
      omega
    rw [hn0, hr0]
    by_cases hu : ¬ r0 = 0
    · rw [if_pos hu]
      have hqm : len / n0 % 2 ^ 32 = len / n0 :=
        Nat.mod_eq_of_lt (lt_of_le_of_lt (Nat.div_le_self len n0) hlen32)
      rw [hqm]
      obtain ⟨q, hqe⟩ : ∃ x, len / n0 = x := ⟨_, rfl⟩
      rw [hqe]
      have hdm2 := Nat.div_add_mod len n0
      rw [hqe] at hdm2
      have hmod2 : len % n0 < n0 := Nat.mod_lt _ (by omega)
      have hpm : n0 * q % 2 ^ 32 = n0 * q := Nat.mod_eq_of_lt (by omega)
      rw [hpm]
      have hn0le254 : n0 ≤ 254 := by
        rcases Nat.eq_or_lt_of_le hn0le with he | hlt
        · rw [he] at hdm hcomm
          omega
        · omega
      have hqge : maxBS ≤ q := by
        rw [← hqe, Nat.le_div_iff_mul_le (show 0 < n0 by omega)]
        omega
      have hmul1 : n0 * maxBS ≤ n0 * q := Nat.mul_le_mul_left _ hqge
      have hql : q < 2 * maxBS := by
        by_contra hh
        push_neg at hh
        have hm : n0 * (2 * maxBS) ≤ n0 * q := Nat.mul_le_mul_left _ hh
        have he : n0 * (2 * maxBS) = 2 * (n0 * maxBS) := by ring
        have hm2 : 1 * maxBS ≤ n0 * maxBS := Nat.mul_le_mul_right _ (by omega)
        omega
      have hlenle : len ≤ (n0 + 1) * q := by
        have hh : (n0 + 1) * q = n0 * q + q := by ring
        omega
      split
      · next hinc =>
          dsimp only
          exact ⟨by omega, by omega, hlenle, by omega⟩
      · next hninc =>
          push_neg at hninc
          dsimp only
          exact ⟨by omega, by omega, by omega, by omega⟩
    · rw [if_neg hu]
      push_neg at hu
      dsimp only
      exact ⟨by omega, hn0le, by omega, by omega⟩

/-- Every FEC-active loop-built data shard has representable header
fields. -/
theorem bufBlockOn_wfh (seq0 n nfec bs len : Nat) (buf : List Byte)
    (b : Nat) : (bufBlockOn seq0 n nfec bs len buf b).wfh := by
  unfold bufBlockOn FECBlock.wfh mkHeader
  dsimp only
  exact ⟨Nat.mod_lt _ (by omega), Nat.mod_lt _ (by omega),
    Nat.mod_lt _ (by omega), Nat.mod_lt _ (by omega), Nat.mod_lt _ (by omega)⟩

/-- Every passthrough loop-built shard has representable header fields. -/
theorem bufBlockOff_wfh (seq0 n nfec bs len : Nat) (buf : List Byte)
    (b : Nat) : (bufBlockOff seq0 n nfec bs len buf b).wfh := by
  unfold bufBlockOff FECBlock.wfh mkHeader
  dsimp only
  exact ⟨Nat.mod_lt _ (by omega), Nat.mod_lt _ (by omega),
    Nat.mod_lt _ (by omega), Nat.mod_lt _ (by omega), Nat.mod_lt _ (by omega)⟩

end FEC

namespace FEC

/-!  ### C1 — round trip  -/

set_option maxHeartbeats 1000000 in
/-- C1 (amended): round trip without loss on the representable domain.
For every buffer B with 1 ≤ |B| ≤ 255 × max_shard_size, max_shard_size at
most 32768 (so every shard's slice fits the uint16_t length field of
get_next_block, fec.cc line 27), any parity count (`nfec =
uint8_t(ceil(nblocks * fec_ratio))`, any fec_ratio ≥ 0) and a legal
starting sequence number, feeding the shards of encode_buffer(B) in order
into a fresh FECDecoder and concatenating the emitted payloads truncated
to their length fields yields exactly B.  For max_shard_size ≥ 32769 the
truncation breaks the round trip (see the counterexample). -/
theorem C1_round_trip (K : Kernel) (maxBS nfec seq0 : Nat) (buf : List Byte)
    (hmax1 : 1 ≤ maxBS) (hmax2 : maxBS ≤ 32768)
    (hs1 : 1 ≤ seq0) (hs2 : seq0 ≤ 255)
    (hlen1 : 1 ≤ buf.length) (hlen2 : buf.length ≤ 255 * maxBS) :
    roundTrip K nfec ⟨maxBS, seq0⟩ buf = buf := by
  have hlen32 : buf.length < 2 ^ 32 := by omega
  have hrej : ¬ bufferNblocks32 maxBS buf.length > 255 := by
    unfold bufferNblocks32
    rw [Nat.mod_eq_of_lt (show maxBS < 2 ^ 32 by omega)]
    intro hgt
    have hmle : buf.length / maxBS % 2 ^ 32 ≤ buf.length / maxBS :=
      Nat.mod_le _ _
    have h256 := (Nat.le_div_iff_mul_le (show 0 < maxBS by omega)).mp
      (show 256 ≤ buf.length / maxBS by omega)
    omega
  have hspec := bufferShape_spec maxBS buf.length hmax1 hlen1 hlen2 hmax2
  obtain ⟨n, bs, hshape⟩ : ∃ n bs, bufferShape maxBS buf.length = (n, bs) :=
    ⟨_, _, rfl⟩
  rw [hshape] at hspec
  dsimp only at hspec
  obtain ⟨hn1, hn255, hcov, hbs65⟩ := hspec
  have hseqm : seq0 % 256 = seq0 := Nat.mod_eq_of_lt (by omega)
  have hnbsW : n * bs < 2 ^ 32 := by
    have := Nat.mul_le_mul hn255 hbs65
    omega
  by_cases hfz : nfec % 256 = 0
  · -- FEC disabled: every shard passes straight through the decoder.
    unfold roundTrip
    rw [encode_buffer_off_eq K nfec maxBS seq0 buf hrej (Or.inl hfz)]
    rw [hshape]
    dsimp only
    rw [List.map_map]
    simp only [Function.comp_def]
    have hhdr : ∀ b,
        (bufBlockOff seq0 n nfec bs buf.length buf b).hdr.seq_num =
          nextSeq^[b] seq0 ∧
        ((bufBlockOff seq0 n nfec bs buf.length buf b).hdr.n_blocks = 0 ∨
          (bufBlockOff seq0 n nfec bs buf.length buf b).hdr.n_fec_blocks = 0) ∧
        (bufBlockOff seq0 n nfec bs buf.length buf b).wfh := by
      intro b
      refine ⟨?_, Or.inr hfz, bufBlockOff_wfh _ _ _ _ _ _ _⟩
      show nextSeq^[b] (seq0 % 256) % 256 = nextSeq^[b] seq0
      rw [hseqm]
      exact Nat.mod_eq_of_lt (by
        have := nextSeq_iterate_mem b seq0 hs1 hs2
        omega)
    obtain ⟨o1, o2, o3, o4, o5⟩ := dec_off_run K
      (bufBlockOff seq0 n nfec bs buf.length buf) seq0 hs1 hs2 hhdr n
    unfold emittedPayloads
    rw [o4, List.map_map]
    simp only [Function.comp_def]
    exact emitted_concat n bs buf _ hbs65 hcov hnbsW hlen32
      (fun b _ => ⟨rfl, rfl⟩)
  · -- FEC active: the group closes on its last data shard and the
    -- trailing parity shards are skipped.
    have hnz : n % 256 ≠ 0 := by
      rw [Nat.mod_eq_of_lt (by omega)]
      omega
    unfold roundTrip
    rw [encode_buffer_on_eq K nfec maxBS seq0 buf hrej
      (by rw [hshape]; exact hn1) (by rw [hshape]; exact hn255) hfz]
    rw [hshape]
    dsimp only
    rw [List.map_append, addAll_append, List.map_map]
    simp only [Function.comp_def]
    have hhdr : ∀ b, b < n →
        (bufBlockOn seq0 n nfec bs buf.length buf b).hdr.seq_num = seq0 ∧
        (bufBlockOn seq0 n nfec bs buf.length buf b).hdr.block = b ∧
        (bufBlockOn seq0 n nfec bs buf.length buf b).hdr.n_blocks = n ∧
        (bufBlockOn seq0 n nfec bs buf.length buf b).hdr.n_fec_blocks =
          nfec % 256 ∧
        (bufBlockOn seq0 n nfec bs buf.length buf b).hdr.length < 65536 := by
      intro b hb
      refine ⟨hseqm, ?_, ?_, rfl, ?_⟩
      · show b % 256 = b
        exact Nat.mod_eq_of_lt (by omega)
      · show n % 256 = n
        exact Nat.mod_eq_of_lt (by omega)
      · show sliceLen buf.length bs b % 65536 < 65536
        exact Nat.mod_lt _ (by omega)
    obtain ⟨d1, d2, d3, d4, d5⟩ := dec_on_run K
      (bufBlockOn seq0 n nfec bs buf.length buf) n seq0 (nfec % 256)
      hs1 hs2 hn1 hn255 hfz (Nat.mod_lt _ (by omega)) hhdr
    have hps : ∀ p ∈ bufParityOn K seq0 n nfec bs buf.length buf,
        p.hdr.seq_num = seq0 ∧ p.wfh := by
      intro p hp
      obtain ⟨hp1, hp2⟩ := bufParityOn_mem K seq0 n nfec bs buf.length buf p hp
      rw [hp1]
      exact ⟨hseqm, hp2⟩
    obtain ⟨s1, s2, s3, s4, s5⟩ := dec_skip_run K
      (bufParityOn K seq0 n nfec bs buf.length buf) seq0 hps
      _ d1 (by rw [d2]; exact hseqm)
    unfold emittedPayloads
    rw [s1, d5, List.map_map]
    simp only [Function.comp_def]
    exact emitted_concat n bs buf _ hbs65 hcov hnbsW hlen32
      (fun b _ => ⟨rfl, rfl⟩)

end FEC

namespace FEC

/-- Counterexample for C1: at max_shard_size 32769 a 65537-byte buffer
satisfies 1 ≤ |B| ≤ 255 × max_shard_size, but encode_buffer produces one
shard whose 65537-byte slice is truncated to a 16-bit length of 1
(get_next_block's uint16_t parameter, fec.cc line 27), so the round trip
returns a 1-byte stream instead of B. -/
theorem C1_counterexample :
    1 ≤ (List.replicate 65537 (5 : Byte)).length ∧
    (List.replicate 65537 (5 : Byte)).length ≤ 255 * 32769 ∧
    roundTrip Kzero 0 ⟨32769, 1⟩ (List.replicate 65537 (5 : Byte)) ≠
      List.replicate 65537 (5 : Byte) := by
  have hlen : (List.replicate 65537 (5 : Byte)).length = 65537 :=
    List.length_replicate _ _
  refine ⟨by rw [hlen]; omega, by rw [hlen]; omega, ?_⟩
  have hrej : ¬ bufferNblocks32 32769
      (List.replicate 65537 (5 : Byte)).length > 255 := by
    rw [hlen]
    decide
  unfold roundTrip
  rw [encode_buffer_off_eq Kzero 0 32769 1 (List.replicate 65537 (5 : Byte))
    hrej (Or.inl rfl)]
  have hshape : bufferShape 32769 (List.replicate 65537 (5 : Byte)).length =
      (1, 65537) := by
    rw [hlen]
    decide
  rw [hshape]
  dsimp only
  rw [hlen, List.map_map]
  simp only [Function.comp_def]
  have hhdr : ∀ b,
      (bufBlockOff 1 1 0 65537 65537 (List.replicate 65537 (5 : Byte)) b).hdr.seq_num =
        nextSeq^[b] 1 ∧
      ((bufBlockOff 1 1 0 65537 65537 (List.replicate 65537 (5 : Byte)) b).hdr.n_blocks = 0 ∨
        (bufBlockOff 1 1 0 65537 65537 (List.replicate 65537 (5 : Byte)) b).hdr.n_fec_blocks = 0) ∧
      (bufBlockOff 1 1 0 65537 65537 (List.replicate 65537 (5 : Byte)) b).wfh := by
    intro b
    refine ⟨?_, Or.inr rfl, bufBlockOff_wfh _ _ _ _ _ _ _⟩
    show nextSeq^[b] (1 % 256) % 256 = nextSeq^[b] 1
    rw [show (1 : Nat) % 256 = 1 from rfl]
    exact Nat.mod_eq_of_lt (by
      have := nextSeq_iterate_mem b 1 (by omega) (by omega)
      omega)
  obtain ⟨o1, o2, o3, o4, o5⟩ := dec_off_run Kzero
    (bufBlockOff 1 1 0 65537 65537 (List.replicate 65537 (5 : Byte))) 1
    (by omega) (by omega) hhdr 1
  unfold emittedPayloads
  rw [o4, List.map_map]
  simp only [Function.comp_def]
  intro hcontra
  have h1 := congrArg List.length hcontra
  rw [hlen] at h1
  rw [show List.range 1 = [0] from rfl] at h1
  simp only [List.map_cons, List.map_nil, List.flatten_cons, List.flatten_nil,
    List.append_nil] at h1
  rw [List.length_take] at h1
  have hdl : (bufBlockOff 1 1 0 65537 65537
      (List.replicate 65537 (5 : Byte)) 0).dataLength = 1 := by
    decide
  rw [hdl] at h1
  omega

set_option maxRecDepth 10000 in
/-- Witness for C1_round_trip: a 9-byte buffer, max_shard_size 4 and one
parity shard round-trip losslessly. -/
theorem C1_witness :
    1 ≤ (4 : Nat) ∧ (4 : Nat) ≤ 32768 ∧ (1 : Nat) ≤ 1 ∧ (1 : Nat) ≤ 255 ∧
    1 ≤ ([1, 2, 3, 4, 5, 6, 7, 8, 9] : List Byte).length ∧
    ([1, 2, 3, 4, 5, 6, 7, 8, 9] : List Byte).length ≤ 255 * 4 ∧
    roundTrip Kzero 1 ⟨4, 1⟩ [1, 2, 3, 4, 5, 6, 7, 8, 9] =
      [1, 2, 3, 4, 5, 6, 7, 8, 9] :=
  ⟨by decide, by decide, by decide, by decide, by decide, by decide,
    C1_round_trip Kzero 4 1 1 [1, 2, 3, 4, 5, 6, 7, 8, 9] (by decide)
      (by decide) (by decide) (by decide) (by decide) (by decide)⟩

end FEC

namespace FEC

end FEC

namespace FEC

end FEC
